import Mathlib

/-!
Verification development for the deno-debug-skill repository.

This file gives a shallow embedding of the core data models and algorithms of
the repository (the CDP protocol session in `skill/scripts/cdp_client.py`, the
heap-snapshot model and diff engine in `deno-debugger/scripts/heap_analyzer.py`,
and the CPU-profile model in `scripts/cpu_profiler.py`) and proves properties
of the embedded definitions.

Modelling conventions:
* Python ints are `Nat`/`Int`; Python floats that only carry exact arithmetic
  in the properties of interest are `Rat`.
* Python dicts keyed by insertion are association lists; dict lookup is
  last-write-wins, so lookups search the reversed list.
* pandas DataFrames are lists of row structures; `sort_values` is an
  insertion sort by the sort column (all properties proved below are
  independent of the order of ties).
* Python sets (`all_keys` in `compare_snapshots`) are deduplicated key lists;
  the properties proved are independent of the iteration order chosen.
-/

namespace DenoDebug

/-! ## Heap snapshot data model (`heap_analyzer.py`) -/

/-- `HeapNode` dataclass from `heap_analyzer.py`. -/
structure HeapNode where
  node_id : Nat
  node_type : String
  name : String
  self_size : Nat
  edge_count : Nat
  trace_node_id : Nat
  deriving DecidableEq, Repr

/-- The `name_or_index` field of an edge: a string for property/internal
edges, an integer otherwise. -/
inductive NameOrIndex where
  | str (s : String)
  | idx (n : Nat)
  deriving DecidableEq, Repr

/-- `HeapEdge` dataclass from `heap_analyzer.py`. -/
structure HeapEdge where
  edge_type : String
  name_or_index : NameOrIndex
  to_node : Nat
  deriving DecidableEq, Repr

/-- The (type, name) grouping key used by `compare_snapshots`. -/
def nodeKey (n : HeapNode) : String × String := (n.node_type, n.name)

/-- Number of nodes of a snapshot falling in group `k`
(the `count` field of the `summarize` helper in `compare_snapshots`). -/
def countKey (nodes : List HeapNode) (k : String × String) : Nat :=
  (nodes.filter (fun n => nodeKey n = k)).length

/-- Total self size of the nodes of a snapshot falling in group `k`
(the `size` field of the `summarize` helper in `compare_snapshots`). -/
def sizeKey (nodes : List HeapNode) (k : String × String) : Nat :=
  ((nodes.filter (fun n => nodeKey n = k)).map HeapNode.self_size).sum

/-- Per-group count delta between two snapshots. -/
def countDelta (before after : List HeapNode) (k : String × String) : Int :=
  (countKey after k : Int) - (countKey before k : Int)

/-- Per-group self-size delta between two snapshots. -/
def sizeDelta (before after : List HeapNode) (k : String × String) : Int :=
  (sizeKey after k : Int) - (sizeKey before k : Int)

/-- Helper of `dedupFirst`: keep the elements not already seen. -/
def dedupFirstGo {α : Type} [DecidableEq α] : List α → List α → List α
  | [], _ => []
  | x :: xs, seen =>
    if x ∈ seen then dedupFirstGo xs seen else x :: dedupFirstGo xs (x :: seen)

/-- First-occurrence deduplication, modelling iteration over a Python set of
keys.  The properties proved below depend only on membership. -/
def dedupFirst {α : Type} [DecidableEq α] (l : List α) : List α :=
  dedupFirstGo l []

/-- One row of the DataFrame returned by `compare_snapshots`. -/
structure CompareRow where
  node_type : String
  name : String
  count_before : Nat
  count_after : Nat
  count_delta : Int
  size_before : Nat
  size_after : Nat
  size_delta : Int
  deriving DecidableEq, Repr

/-- Grouping key of a comparison row. -/
def rowKey (r : CompareRow) : String × String := (r.node_type, r.name)

/-- The comparison row `compare_snapshots` produces for group `k`. -/
def mkCompareRow (before after : List HeapNode) (k : String × String) : CompareRow :=
  ⟨k.1, k.2, countKey before k, countKey after k, countDelta before after k,
   sizeKey before k, sizeKey after k, sizeDelta before after k⟩

/-- Insert into a list sorted descending w.r.t. the strict comparator `lt`
(stable). -/
def insertDescBy {α : Type} (lt : α → α → Bool) (r : α) : List α → List α
  | [] => [r]
  | x :: xs => if lt x r then r :: x :: xs else x :: insertDescBy lt r xs

/-- Insertion sort, descending w.r.t. the strict comparator `lt`; models
`df.sort_values(..., ascending=False)`. -/
def sortDescBy {α : Type} (lt : α → α → Bool) : List α → List α
  | [] => []
  | x :: xs => insertDescBy lt x (sortDescBy lt xs)

/-- `compare_snapshots` from `heap_analyzer.py`: group each snapshot's nodes by
(type, name), keep the groups with positive count or size delta, and return
rows sorted by descending size delta. -/
def compare_snapshots (before after : List HeapNode) : List CompareRow :=
  let all_keys := dedupFirst (before.map nodeKey ++ after.map nodeKey)
  let rows := all_keys.filterMap (fun k =>
    let cb := countKey before k
    let ca := countKey after k
    let sb := sizeKey before k
    let sa := sizeKey after k
    let cd : Int := (ca : Int) - (cb : Int)
    let sd : Int := (sa : Int) - (sb : Int)
    if 0 < cd ∨ 0 < sd then
      some ⟨k.1, k.2, cb, ca, cd, sb, sa, sd⟩
    else
      none)
  sortDescBy (fun a b => a.size_delta < b.size_delta) rows

/-- One row of the DataFrame returned by `detect_leaks`. -/
structure LeakRow where
  node_type : String
  name : String
  total_growth_mb : Rat
  growth_per_snapshot_mb : Rat
  snapshots_growing : Nat
  deriving DecidableEq, Repr

/-- Consecutive pairs of a list (`snapshots[i], snapshots[i+1]`). -/
def consecutivePairs {α : Type} : List α → List (α × α)
  | [] => []
  | [_] => []
  | a :: b :: rest => (a, b) :: consecutivePairs (b :: rest)

/-- The concatenated rows of all consecutive pairwise comparisons, in the
order `detect_leaks` scans them. -/
def pairwiseRows (snapshots : List (List HeapNode)) : List CompareRow :=
  ((consecutivePairs snapshots).map (fun p => compare_snapshots p.1 p.2)).flatten

/-- The growth trend of group `k`: size deltas of the comparison rows for `k`,
in scan order (`growth_trends[key]` in `detect_leaks`). -/
def growthTrend (snapshots : List (List HeapNode)) (k : String × String) : List Int :=
  ((pairwiseRows snapshots).filter (fun r => rowKey r = k)).map CompareRow.size_delta

/-- `detect_leaks` from `heap_analyzer.py`.  `threshold_mb` is the threshold
in megabytes; a group is reported when every recorded delta is positive and
the summed growth exceeds `threshold_mb * 1024 * 1024` bytes. -/
def detect_leaks (snapshots : List (List HeapNode)) (threshold_mb : Rat) : List LeakRow :=
  if snapshots.length < 2 then []
  else
    let threshold_bytes : Rat := threshold_mb * 1024 * 1024
    let keys := dedupFirst ((pairwiseRows snapshots).map rowKey)
    let leaks := keys.filterMap (fun k =>
      let deltas := growthTrend snapshots k
      if (∀ d ∈ deltas, 0 < d) ∧ threshold_bytes < ((deltas.sum : Int) : Rat) then
        some ⟨k.1, k.2, ((deltas.sum : Int) : Rat) / (1024 * 1024),
              (((deltas.sum : Int) : Rat) / (deltas.length : Rat)) / (1024 * 1024),
              deltas.length⟩
      else
        none)
    sortDescBy (fun a b => a.total_growth_mb < b.total_growth_mb) leaks

/-! ## CPU profile data model (`cpu_profiler.py`) -/

/-- `ProfileNode` dataclass from `cpu_profiler.py`. -/
structure ProfileNode where
  node_id : Nat
  function_name : String
  script_id : String
  url : String
  line_number : Int
  column_number : Int
  hit_count : Nat
  children : List Nat
  bailout_reason : String
  deopt_reason : String
  deriving DecidableEq, Repr

/-- One entry of the raw `nodes` array of a CPU profile payload.  The
`.get(..., default)` defaulting of `CPUProfile._parse_nodes` is already
applied, so each field is total. -/
structure PNodeData where
  id : Nat
  functionName : String
  scriptId : String
  url : String
  lineNumber : Int
  columnNumber : Int
  hitCount : Nat
  children : List Nat
  bailoutReason : String
  deoptReason : String
  deriving DecidableEq, Repr

/-- A raw CPU profile payload (`profile_data` in `CPUProfile.__init__`),
with the `.get` defaults already applied. -/
structure ProfilePayload where
  startTime : Int
  endTime : Int
  nodes : List PNodeData
  samples : List Nat
  timeDeltas : List Int
  deriving DecidableEq, Repr

/-- The parsed `CPUProfile` state after `__init__`. -/
structure CPUProfile where
  nodes : List ProfileNode
  start_time : Int
  end_time : Int
  samples : List Nat
  time_deltas : List Int
  deriving DecidableEq, Repr

/-- `CPUProfile.__init__` / `_parse_nodes`: constructs the profile model.
The constructor performs no validation and cannot fail. -/
def mkCPUProfile (pd : ProfilePayload) : CPUProfile where
  nodes := pd.nodes.map (fun d =>
    ⟨d.id, d.functionName, d.scriptId, d.url, d.lineNumber, d.columnNumber,
     d.hitCount, d.children, d.bailoutReason, d.deoptReason⟩)
  start_time := pd.startTime
  end_time := pd.endTime
  samples := pd.samples
  time_deltas := pd.timeDeltas

/-- `self.node_by_id` lookup: a Python dict comprehension is last-write-wins,
so the lookup searches the reversed node list. -/
def CPUProfile.node_by_id (p : CPUProfile) (i : Nat) : Option ProfileNode :=
  p.nodes.reverse.find? (fun n => n.node_id = i)

/-- `self.children_map.get(i, [])`: `_build_call_tree` appends each node's
children under the node's id, scanning nodes in order. -/
def CPUProfile.children_map (p : CPUProfile) (i : Nat) : List Nat :=
  (p.nodes.filter (fun n => n.node_id = i)).flatMap ProfileNode.children

/-- `self.total_samples`. -/
def CPUProfile.total_samples (p : CPUProfile) : Nat :=
  p.samples.length

/-- `self.sample_counts.get(i, 0)` (a `Counter` over the sample sequence). -/
def CPUProfile.sample_counts (p : CPUProfile) (i : Nat) : Nat :=
  p.samples.count i

/-- `CPUProfile._get_inclusive_samples`, fuel-indexed (the fuel bounds the
recursion depth; `inclFuel` below is always sufficient): self count plus
children's inclusive counts, folding over the children while threading the
shared `visited` set; a node already in `visited` contributes `(0, visited)`.
`none` means the fuel was exhausted. -/
def inclGo (p : CPUProfile) : Nat → Nat → List Nat → Option (Nat × List Nat)
  | 0, _, _ => none
  | fuel + 1, nid, visited =>
    if nid ∈ visited then some (0, visited)
    else
      (p.children_map nid).foldl
        (fun acc c =>
          match acc with
          | none => none
          | some (k, vis) =>
            match inclGo p fuel c vis with
            | none => none
            | some kv => some (k + kv.1, kv.2))
        (some (p.sample_counts nid, nid :: visited))

/-- Sufficient fuel for `inclGo`: the recursion depth is bounded by the
number of child ids plus two. -/
def inclFuel (p : CPUProfile) : Nat :=
  (p.nodes.flatMap ProfileNode.children).length + 2

/-- `self.inclusive_samples[nid]`: computed with a fresh visited set per node. -/
def CPUProfile.inclusive_samples (p : CPUProfile) (nid : Nat) : Nat :=
  match inclGo p (inclFuel p) nid [] with
  | some r => r.1
  | none => 0

/-- One row of the DataFrame returned by `get_hot_functions`. -/
structure HotRow where
  function_name : String
  url : String
  line : Int
  self_samples : Nat
  total_samples : Nat
  self_pct : Rat
  total_pct : Rat
  bailout_reason : String
  deopt_reason : String
  deriving DecidableEq, Repr

/-- `CPUProfile.get_hot_functions`: one row per node with positive self or
inclusive count, sorted by inclusive sample count descending, truncated to
`limit`. -/
def CPUProfile.get_hot_functions (p : CPUProfile) (limit : Nat) : List HotRow :=
  let data := p.nodes.filterMap (fun n =>
    if 0 < n.hit_count ∨ 0 < p.inclusive_samples n.node_id then
      some { function_name := if n.function_name = "" then "(anonymous)" else n.function_name
             url := n.url
             line := n.line_number
             self_samples := n.hit_count
             total_samples := p.inclusive_samples n.node_id
             self_pct := if 0 < p.total_samples then
               (n.hit_count : Rat) / (p.total_samples : Rat) * 100 else 0
             total_pct := if 0 < p.total_samples then
               (p.inclusive_samples n.node_id : Rat) / (p.total_samples : Rat) * 100 else 0
             bailout_reason := n.bailout_reason
             deopt_reason := n.deopt_reason }
    else none)
  (sortDescBy (fun a b => a.total_samples < b.total_samples) data).take limit

/-- The invariant asserted by the specification: every id appearing in the
sample sequence resolves to a known node. -/
def samplesResolve (p : CPUProfile) : Prop :=
  ∀ s ∈ p.samples, p.node_by_id s ≠ none

instance (p : CPUProfile) : Decidable (samplesResolve p) := by
  unfold samplesResolve
  infer_instance

/-! ## CDP protocol session model (`cdp_client.py`)

The session state is the mutable attribute set of the `CDPClient` class.
`α` is the type of wire payloads (result dicts / event params).  Handlers are
identified by tokens (`Nat`): the Python closures compare by identity, so a
freshly created handler is distinct from every registered one.  The futures
created by `send_command` are resolved by popping the pending entry and
recording the outcome in the `resolutions` log (the caller-held future). -/

/-- The `self.ws` attribute: `None` before `connect`, then an open or closed
websocket. -/
inductive WsState where
  | noWs
  | opened
  | closed
  deriving DecidableEq, Repr

/-- The state of one `asyncio.Future` created by `send_command`. -/
inductive FutureState (α : Type) where
  | pending
  | resolved (result : α)
  | rejected (errorMessage : String)
  deriving DecidableEq, Repr

/-- Messages decoded by `_message_handler`: a frame with an `id` is a
response (with either an error message or a result), a frame with a `method`
is an event. -/
inductive Message (α : Type) where
  | response (id : Nat) (error : Option String) (result : α)
  | event (method : String) (params : α)
  deriving DecidableEq, Repr

/-- The mutable state of a `CDPClient`. -/
structure CDPClient (α : Type) where
  ws : WsState
  next_id : Nat
  pending_requests : List (Nat × FutureState α)
  event_handlers : List (String × List Nat)
  paused : Bool
  call_frames : Option α
  /-- Outcomes delivered to caller-held futures by the receive loop. -/
  resolutions : List (Nat × FutureState α)
  deriving DecidableEq, Repr

namespace CDPClient

/-- Handler list for an event name (`self.event_handlers[name]`, `[]` when
the name is absent). -/
def getHandlers {α : Type} (st : CDPClient α) (name : String) : List Nat :=
  (((st.event_handlers.find? (fun e => e.1 = name)).map Prod.snd)).getD []

/-- `send_command`: allocate the next id, store a pending future under it,
transmit, and return the allocated id.  (The suspension of the caller until
the future resolves is represented by the pending entry.) -/
def send_command {α : Type} (st : CDPClient α) : Nat × CDPClient α :=
  let msg_id := st.next_id
  (msg_id,
   { st with
     next_id := st.next_id + 1
     pending_requests := st.pending_requests ++ [(msg_id, FutureState.pending)] })

/-- The outcome a response delivers to its future: `set_exception` on an
error frame, `set_result` otherwise. -/
def respOutcome {α : Type} (error : Option String) (result : α) : FutureState α :=
  match error with
  | some msg => FutureState.rejected msg
  | none => FutureState.resolved result

/-- The response branch of `_message_handler`: if the id is pending, pop the
entry and resolve the future with the error or the result. -/
def handle_response {α : Type} (st : CDPClient α) (i : Nat) (error : Option String)
    (result : α) : CDPClient α :=
  if (st.pending_requests.find? (fun e => e.1 = i)).isSome then
    { st with
      pending_requests := st.pending_requests.filter (fun e => e.1 ≠ i)
      resolutions := st.resolutions ++ [(i, respOutcome error result)] }
  else st

/-- The event branch of `_message_handler`: built-in `Debugger.paused` /
`Debugger.resumed` state transitions (handler invocation spawns tasks and
does not change the session state). -/
def handle_event {α : Type} (st : CDPClient α) (method : String) (params : α) :
    CDPClient α :=
  if method = "Debugger.paused" then
    { st with paused := true, call_frames := some params }
  else if method = "Debugger.resumed" then
    { st with paused := false, call_frames := none }
  else st

/-- One iteration of the `_message_handler` receive loop. -/
def handle_message {α : Type} (st : CDPClient α) : Message α → CDPClient α
  | Message.response i error result => handle_response st i error result
  | Message.event method params => handle_event st method params

/-- The outcome delivered to the future of command `i`, if any (last write
wins). -/
def resolutionOf {α : Type} (st : CDPClient α) (i : Nat) : Option (FutureState α) :=
  (st.resolutions.reverse.find? (fun e => e.1 = i)).map Prod.snd

/-- `on_event`: append a handler under the event name, creating the list if
absent. -/
def on_event {α : Type} (st : CDPClient α) (name : String) (h : Nat) : CDPClient α :=
  if (st.event_handlers.find? (fun e => e.1 = name)).isSome then
    { st with
      event_handlers := st.event_handlers.map
        (fun e => if e.1 = name then (e.1, e.2 ++ [h]) else e) }
  else
    { st with event_handlers := st.event_handlers ++ [(name, [h])] }

/-- The handler cleanup of `take_heap_snapshot`'s `finally` block: remove the
first occurrence of the handler when the name is registered and the handler
is in its list. -/
def remove_handler {α : Type} (st : CDPClient α) (name : String) (h : Nat) :
    CDPClient α :=
  if h ∈ st.getHandlers name then
    { st with
      event_handlers := st.event_handlers.map
        (fun e => if e.1 = name then (e.1, e.2.erase h) else e) }
  else st

/-- `close`: `if self.ws: await self.ws.close()` — closing the websocket only
(closing an already-closed websocket is a no-op). -/
def close {α : Type} (st : CDPClient α) : CDPClient α :=
  match st.ws with
  | WsState.noWs => st
  | _ => { st with ws := WsState.closed }

/-- Chunk-delivery and progress events observed during a heap-snapshot
capture window. -/
inductive CaptureEvent where
  | chunk (data : Option String)
  | progress (finished : Bool)
  deriving DecidableEq, Repr

/-- `take_heap_snapshot`: subscribe the temporary chunk handler (and, when
`report_progress`, the progress handler), issue the snapshot command in the
background, accumulate the chunk data delivered before the completion signal
or deadline (`events`), then unconditionally (`finally`) unsubscribe the
temporary handlers and return the joined chunks.  `h_c`/`h_p` are the fresh
closure tokens of `chunk_handler`/`progress_handler`; the leading
`send_command` is `enable_heap_profiler`. -/
def take_heap_snapshot {α : Type} (st : CDPClient α) (report_progress : Bool)
    (h_c h_p : Nat) (events : List CaptureEvent) : String × CDPClient α :=
  let st1 := (send_command st).2
  let st2 := on_event st1 "HeapProfiler.addHeapSnapshotChunk" h_c
  let st3 := if report_progress then
    on_event st2 "HeapProfiler.reportHeapSnapshotProgress" h_p else st2
  let st4 := (send_command st3).2
  let chunks := events.filterMap (fun e =>
    match e with
    | CaptureEvent.chunk (some s) => some s
    | _ => none)
  let st5 := remove_handler st4 "HeapProfiler.addHeapSnapshotChunk" h_c
  let st6 := if report_progress then
    remove_handler st5 "HeapProfiler.reportHeapSnapshotProgress" h_p else st5
  (String.join chunks, st6)

/-- The ids of the in-flight commands. -/
def pendingIds {α : Type} (st : CDPClient α) : List Nat :=
  st.pending_requests.map Prod.fst

/-- Counter invariant: every in-flight id is below the counter. -/
def idsBounded {α : Type} (st : CDPClient α) : Prop :=
  ∀ e ∈ st.pending_requests, e.1 < st.next_id

end CDPClient

/-! ## Heap snapshot parsing (`HeapSnapshot.__init__` and helpers)

Parsing is embedded in `Except String`: list subscripts (`IndexError`),
`list.index` (`ValueError`) and integer division (`ZeroDivisionError`) are the
Python operations that can raise. -/

/-- Python list subscript `l[i]` (non-negative index). -/
def pyIndex {α : Type} (l : List α) (i : Nat) : Except String α :=
  if h : i < l.length then Except.ok (l.get ⟨i, h⟩) else Except.error "IndexError"

/-- Python `l.index(s)`. -/
def pyIndexOf (l : List String) (s : String) : Except String Nat :=
  match l.findIdx? (fun x => x = s) with
  | some i => Except.ok i
  | none => Except.error "ValueError"

/-- Python integer floor division `a // b` on naturals. -/
def pyDiv (a b : Nat) : Except String Nat :=
  if b = 0 then Except.error "ZeroDivisionError" else Except.ok (a / b)

/-- A raw heap snapshot payload with the `.get(..., default)` defaults of
`HeapSnapshot.__init__` already applied (`snapshot.meta` fields, flat
`nodes`/`edges` arrays, shared `strings` table). -/
structure HeapPayload where
  node_fields : List String
  node_types : List (List String)
  edge_fields : List String
  edge_types : List (List String)
  nodes : List Nat
  edges : List Nat
  strings : List String
  deriving DecidableEq, Repr

/-- The per-chunk loop of `_parse_nodes`: consume `cnt` raw values per node.
The first argument is fuel bounding the number of chunks; since each step
consumes at least one raw value (`0 < cnt`), fuel equal to the data length is
always sufficient and the `"fuel"` error is unreachable from `parse_nodes`. -/
def parseNodeChunks (node_types0 : List String) (strings : List String)
    (type_idx name_idx id_idx self_size_idx edge_count_idx trace_idx cnt : Nat) :
    Nat → List Nat → Except String (List HeapNode)
  | _, [] => Except.ok []
  | 0, _ :: _ => Except.error "fuel"
  | fuel + 1, x :: xs => do
    let chunk := (x :: xs).take cnt
    let tnum ← pyIndex chunk type_idx
    let ntype ← pyIndex node_types0 tnum
    let nameNum ← pyIndex chunk name_idx
    let name ← pyIndex strings nameNum
    let nid ← pyIndex chunk id_idx
    let ssize ← pyIndex chunk self_size_idx
    let ecount ← pyIndex chunk edge_count_idx
    let tnid ← pyIndex chunk trace_idx
    let rest ← parseNodeChunks node_types0 strings type_idx name_idx id_idx
      self_size_idx edge_count_idx trace_idx cnt fuel ((x :: xs).drop cnt)
    Except.ok (⟨nid, ntype, name, ssize, ecount, tnid⟩ :: rest)

/-- `HeapSnapshot._parse_nodes`.  An empty `node_fields` would make the
Python `range` step zero (`ValueError`). -/
def parse_nodes (pl : HeapPayload) : Except String (List HeapNode) := do
  let node_types0 ← pyIndex pl.node_types 0
  let type_idx ← pyIndexOf pl.node_fields "type"
  let name_idx ← pyIndexOf pl.node_fields "name"
  let id_idx ← pyIndexOf pl.node_fields "id"
  let self_size_idx ← pyIndexOf pl.node_fields "self_size"
  let edge_count_idx ← pyIndexOf pl.node_fields "edge_count"
  let trace_idx ← pyIndexOf pl.node_fields "trace_node_id"
  if 0 < pl.node_fields.length then
    parseNodeChunks node_types0 pl.strings type_idx name_idx id_idx self_size_idx
      edge_count_idx trace_idx pl.node_fields.length pl.nodes.length pl.nodes
  else
    Except.error "ValueError"

/-- The per-chunk loop of `_parse_edges`; fuel as in `parseNodeChunks`. -/
def parseEdgeChunks (edge_types0 : List String) (strings : List String)
    (type_idx name_or_index_idx to_node_idx cnt : Nat) :
    Nat → List Nat → Except String (List HeapEdge)
  | _, [] => Except.ok []
  | 0, _ :: _ => Except.error "fuel"
  | fuel + 1, x :: xs => do
    let chunk := (x :: xs).take cnt
    let tnum ← pyIndex chunk type_idx
    let etype ← pyIndex edge_types0 tnum
    let rawNoi ← pyIndex chunk name_or_index_idx
    let noi ← if etype = "property" ∨ etype = "internal" then do
        let s ← pyIndex strings rawNoi
        Except.ok (NameOrIndex.str s)
      else
        Except.ok (NameOrIndex.idx rawNoi)
    let toNode ← pyIndex chunk to_node_idx
    let rest ← parseEdgeChunks edge_types0 strings type_idx name_or_index_idx
      to_node_idx cnt fuel ((x :: xs).drop cnt)
    Except.ok (⟨etype, noi, toNode⟩ :: rest)

/-- `HeapSnapshot._parse_edges`. -/
def parse_edges (pl : HeapPayload) : Except String (List HeapEdge) := do
  let edge_types0 ← pyIndex pl.edge_types 0
  let type_idx ← pyIndexOf pl.edge_fields "type"
  let name_or_index_idx ← pyIndexOf pl.edge_fields "name_or_index"
  let to_node_idx ← pyIndexOf pl.edge_fields "to_node"
  if 0 < pl.edge_fields.length then
    parseEdgeChunks edge_types0 pl.strings type_idx name_or_index_idx to_node_idx
      pl.edge_fields.length pl.edges.length pl.edges
  else
    Except.error "ValueError"

/-- The inner `for _ in range(node.edge_count)` loop of
`_build_retention_index`: `k` iterations for source node `srcId`, starting at
`edge_idx`, appending to `acc` (entries are `(target id, source id, edge)`). -/
def retentionInner (edges : List HeapEdge) (nodes : List HeapNode) (nfc : Nat)
    (srcId : Nat) : Nat → Nat → List (Nat × Nat × HeapEdge) →
    Except String (Nat × List (Nat × Nat × HeapEdge))
  | 0, edge_idx, acc => Except.ok (edge_idx, acc)
  | k + 1, edge_idx, acc =>
    if edge_idx < edges.length then do
      let edge ← pyIndex edges edge_idx
      let tgt ← pyDiv edge.to_node nfc
      let acc' := if h : tgt < nodes.length then
          acc ++ [((nodes.get ⟨tgt, h⟩).node_id, srcId, edge)]
        else acc
      retentionInner edges nodes nfc srcId k (edge_idx + 1) acc'
    else
      retentionInner edges nodes nfc srcId k edge_idx acc

/-- The outer node loop of `_build_retention_index`. -/
def retentionOuter (edges : List HeapEdge) (allNodes : List HeapNode) (nfc : Nat) :
    List HeapNode → Nat → List (Nat × Nat × HeapEdge) →
    Except String (List (Nat × Nat × HeapEdge))
  | [], _, acc => Except.ok acc
  | n :: rest, edge_idx, acc => do
    let r ← retentionInner edges allNodes nfc n.node_id n.edge_count edge_idx acc
    retentionOuter edges allNodes nfc rest r.1 r.2

/-- `HeapSnapshot._build_retention_index`: `nfc` is `len(meta.node_fields)`. -/
def build_retention_index (nodes : List HeapNode) (edges : List HeapEdge)
    (nfc : Nat) : Except String (List (Nat × Nat × HeapEdge)) :=
  retentionOuter edges nodes nfc nodes 0 []

/-- Well-formedness of one retained-by entry: its edge is one of the parsed
edges, the edge's target offset divided by the node field count lands inside
the node array, and the recorded target id is that node's id. -/
def retentionEntryOk (edges : List HeapEdge) (nodes : List HeapNode) (nfc : Nat)
    (ent : Nat × Nat × HeapEdge) : Prop :=
  ent.2.2 ∈ edges ∧ ∃ hlt : ent.2.2.to_node / nfc < nodes.length,
    ent.1 = (nodes.get ⟨ent.2.2.to_node / nfc, hlt⟩).node_id

/-- A heap snapshot payload like the repository's test fixture, but whose
first node declares five outgoing edges while only one edge is present in
the flat edge array (surplus declared edges), and whose single edge targets
offset 6 (node index 1). -/
def samplePayload : HeapPayload :=
  { node_fields := ["type", "name", "id", "self_size", "edge_count",
                    "trace_node_id"]
    node_types := [["hidden", "array", "string", "object", "code", "closure",
                    "regexp", "number", "native", "synthetic"], []]
    edge_fields := ["type", "name_or_index", "to_node"]
    edge_types := [["context", "element", "property", "internal", "hidden",
                    "shortcut", "weak"], []]
    nodes := [9, 0, 1, 0, 5, 0, 3, 1, 2, 100, 0, 0]
    edges := [2, 2, 6]
    strings := ["(GC roots)", "Object", "myProperty"] }

/-- The nodes `parse_nodes` produces for `samplePayload`. -/
def sampleNodes : List HeapNode :=
  [⟨1, "synthetic", "(GC roots)", 0, 5, 0⟩, ⟨2, "object", "Object", 100, 0, 0⟩]

/-- The edges `parse_edges` produces for `samplePayload`. -/
def sampleEdges : List HeapEdge :=
  [⟨"property", NameOrIndex.str "myProperty", 6⟩]

/-- The parsed `HeapSnapshot` state: node list, edge list and the
retained-by index (`(target id, source id, edge)` in append order). -/
structure HeapSnapshot where
  nodes : List HeapNode
  edges : List HeapEdge
  retained_by : List (Nat × Nat × HeapEdge)
  deriving DecidableEq, Repr

/-- `HeapSnapshot.__init__`: parse nodes and edges, then build the indexes. -/
def mkHeapSnapshot (pl : HeapPayload) : Except String HeapSnapshot := do
  let nodes ← parse_nodes pl
  let edges ← parse_edges pl
  let idx ← build_retention_index nodes edges pl.node_fields.length
  Except.ok ⟨nodes, edges, idx⟩

/-- `self.node_by_id.get(i)` (dict comprehension: last write wins). -/
def HeapSnapshot.node_by_id (s : HeapSnapshot) (i : Nat) : Option HeapNode :=
  s.nodes.reverse.find? (fun n => n.node_id = i)

/-- `self.retained_by.get(i, [])`: the `(source id, edge)` pairs recorded for
target `i`, in append order. -/
def HeapSnapshot.retainersOf (s : HeapSnapshot) (i : Nat) : List (Nat × HeapEdge) :=
  (s.retained_by.filter (fun e => e.1 = i)).map Prod.snd

/-- The root check of `find_retaining_path`. -/
def isGCRoot (n : HeapNode) : Bool :=
  n.node_type = "synthetic" && n.name = "(GC roots)"

/-- Termination measure for the BFS: parsed node ids not yet visited. -/
def keysLeft (s : HeapSnapshot) (visited : List Nat) : Nat :=
  ((s.nodes.map HeapNode.node_id).filter (fun i => i ∉ visited)).length

theorem node_by_id_isSome_iff (s : HeapSnapshot) (i : Nat) :
    (s.node_by_id i).isSome ↔ i ∈ s.nodes.map HeapNode.node_id := by
  simp only [HeapSnapshot.node_by_id, List.find?_isSome, List.mem_reverse,
    decide_eq_true_eq, List.mem_map]

theorem length_filter_notMem_le (v : List Nat) (a : Nat) (l : List Nat) :
    (l.filter (fun x => x ∉ a :: v)).length ≤ (l.filter (fun x => x ∉ v)).length := by
  apply List.Sublist.length_le
  apply List.monotone_filter_right
  intro x hx
  simp only [List.mem_cons, decide_eq_true_eq, not_or] at hx ⊢
  exact hx.2

theorem length_filter_notMem_lt (l v : List Nat) (a : Nat) (hal : a ∈ l)
    (hav : a ∉ v) :
    (l.filter (fun x => x ∉ a :: v)).length < (l.filter (fun x => x ∉ v)).length := by
  obtain ⟨l₁, l₂, rfl⟩ := List.append_of_mem hal
  rw [List.filter_append, List.filter_append,
    List.filter_cons_of_neg (by simp), List.filter_cons_of_pos (by simpa using hav)]
  simp only [List.length_append, List.length_cons]
  have e1 := length_filter_notMem_le v a l₁
  have e2 := length_filter_notMem_le v a l₂
  omega

theorem keysLeft_cons_lt (s : HeapSnapshot) (visited : List Nat) (cur : Nat)
    (hmem : (s.node_by_id cur).isSome) (hnv : cur ∉ visited) :
    keysLeft s (cur :: visited) < keysLeft s visited := by
  have := (node_by_id_isSome_iff s cur).mp hmem
  exact length_filter_notMem_lt _ _ _ this hnv

theorem keysLeft_cons_eq (s : HeapSnapshot) (visited : List Nat) (cur : Nat)
    (hmem : s.node_by_id cur = none) :
    keysLeft s (cur :: visited) = keysLeft s visited := by
  have hnotin : cur ∉ s.nodes.map HeapNode.node_id := by
    intro h
    have := (node_by_id_isSome_iff s cur).mpr h
    rw [hmem] at this
    simp at this
  unfold keysLeft
  congr 1
  apply List.filter_congr
  intro x hx
  have hxc : x ≠ cur := by
    rintro rfl
    exact hnotin hx
  simp [hxc]

/-- The entries enqueued when the BFS expands `cur` with partial path
`path`: one entry per retainer of `cur` whose node exists. -/
def pushesOf (s : HeapSnapshot) (cur : Nat) (path : List (HeapNode × HeapEdge)) :
    List (Nat × List (HeapNode × HeapEdge)) :=
  (s.retainersOf cur).filterMap (fun r =>
    match s.node_by_id r.1 with
    | some rn => some (r.1, (rn, r.2) :: path)
    | none => none)

/-- The BFS loop of `HeapSnapshot.find_retaining_path`: pop from the front of
the queue; skip visited or too-deep entries; return the path on reaching the
`(GC roots)` node; otherwise enqueue every retainer whose node exists. -/
def bfs (s : HeapSnapshot) (maxDepth : Nat) :
    List Nat → List (Nat × List (HeapNode × HeapEdge)) → List (HeapNode × HeapEdge)
  | _, [] => []
  | visited, (cur, path) :: rest =>
    if hskip : cur ∈ visited ∨ maxDepth < path.length then
      bfs s maxDepth visited rest
    else
      match h : s.node_by_id cur with
      | none => bfs s maxDepth (cur :: visited) rest
      | some n =>
        if isGCRoot n then path
        else
          bfs s maxDepth (cur :: visited) (rest ++ pushesOf s cur path)
  termination_by visited queue => (keysLeft s visited, queue.length)
  decreasing_by
  · apply Prod.Lex.right
    simp only [List.length_cons]
    omega
  · have heq : keysLeft s (cur :: visited) = keysLeft s visited :=
      keysLeft_cons_eq s visited cur h
    rw [heq]
    apply Prod.Lex.right
    simp only [List.length_cons]
    omega
  · apply Prod.Lex.left
    apply keysLeft_cons_lt s visited cur (by simp [h])
    exact fun hcv => hskip (Or.inl hcv)

/-- `HeapSnapshot.find_retaining_path`. -/
def HeapSnapshot.find_retaining_path (s : HeapSnapshot) (node_id : Nat)
    (max_depth : Nat) : List (HeapNode × HeapEdge) :=
  bfs s max_depth [] [(node_id, [])]

/-- A retaining chain of length `m` from node `u` up to a GC root, walking
the retained-by index exactly as the BFS does: every node on the chain is
parsed (its id resolves), each step follows a recorded `(retainer, edge)`
pair, and the final node is the synthetic `(GC roots)` node. -/
inductive RootSeq (s : HeapSnapshot) : Nat → Nat → Prop where
  | zero (u : Nat) (n : HeapNode) (hn : s.node_by_id u = some n)
      (hroot : isGCRoot n = true) : RootSeq s u 0
  | succ (u : Nat) (n : HeapNode) (x : Nat) (e : HeapEdge) (m : Nat)
      (hn : s.node_by_id u = some n) (hmem : (x, e) ∈ s.retainersOf u)
      (hx : RootSeq s x m) : RootSeq s u (m + 1)

/-- `ChainRep s t u p`: the queue path `p` represents a retaining chain from
`u` down to the query target `t`, in the (node, edge) format the BFS builds:
the first pair is `u`'s node together with the edge from `u` to the next
chain node. -/
def ChainRep (s : HeapSnapshot) (t : Nat) :
    Nat → List (HeapNode × HeapEdge) → Prop
  | u, [] => u = t
  | u, (n, e) :: rest => s.node_by_id u = some n ∧
      ∃ v, (u, e) ∈ s.retainersOf v ∧ ChainRep s t v rest

/-- Queue lengths are nondecreasing from front to back and span at most one
level: every entry is at most one longer than the head. -/
def SortedSpan (queue : List (Nat × List (HeapNode × HeapEdge))) : Prop :=
  queue.Pairwise (fun a b => a.2.length ≤ b.2.length) ∧
  ∀ hd ∈ queue.head?, ∀ f ∈ queue, f.2.length ≤ hd.2.length + 1

/-- No visited node is the GC-roots node (the BFS would have returned). -/
def NoVisitedRoots (s : HeapSnapshot) (visited : List Nat) : Prop :=
  ∀ w ∈ visited, ∀ n, s.node_by_id w = some n → isGCRoot n = false

/-- Every expanded (visited, parsed) node's retainers are accounted for:
each retainer with a parsed node is itself visited or sits in the queue with
a path at most one longer than the head's. -/
def Closure (s : HeapSnapshot) (visited : List Nat)
    (queue : List (Nat × List (HeapNode × HeapEdge))) : Prop :=
  ∀ w ∈ visited, (∃ n, s.node_by_id w = some n) →
    ∀ r ∈ s.retainersOf w, (∃ rn, s.node_by_id r.1 = some rn) →
      r.1 ∈ visited ∨ ∃ pr, (r.1, pr) ∈ queue ∧
        ∀ hd ∈ queue.head?, pr.length ≤ hd.2.length + 1

/-- Every queue entry's path represents a chain down to the target `t`. -/
def ChainQueue (s : HeapSnapshot) (t : Nat)
    (queue : List (Nat × List (HeapNode × HeapEdge))) : Prop :=
  ∀ q ∈ queue, ChainRep s t q.1 q.2

/-- Some unvisited queue entry can still be extended to a root within the
budget `d`. -/
def Foothold (s : HeapSnapshot) (visited : List Nat)
    (queue : List (Nat × List (HeapNode × HeapEdge))) (d : Nat) : Prop :=
  ∃ u p m, (u, p) ∈ queue ∧ u ∉ visited ∧ RootSeq s u m ∧ p.length + m ≤ d

/-- Edge by which the GC-roots node retains node 2 in the `c7snap` fixture. -/
def c7edge12 : HeapEdge := ⟨"internal", NameOrIndex.str "r2", 7⟩

/-- Edge by which node 2 retains node 3 in the `c7snap` fixture. -/
def c7edge23 : HeapEdge := ⟨"property", NameOrIndex.str "r3", 14⟩

/-- A small snapshot for the retaining-path search: node 1 is the synthetic
`(GC roots)` node, node 2 is retained by it, node 3 is retained by node 2,
and node 5 is isolated (no incoming edges). -/
def c7snap : HeapSnapshot :=
  { nodes := [⟨1, "synthetic", "(GC roots)", 0, 1, 0⟩,
              ⟨2, "object", "A", 16, 1, 0⟩,
              ⟨3, "object", "B", 24, 0, 0⟩,
              ⟨5, "object", "C", 8, 0, 0⟩],
    edges := [c7edge12, c7edge23],
    retained_by := [(2, 1, c7edge12), (3, 2, c7edge23)] }

/-- Edges of the rootless retain cycle fixture. -/
def c7edge78 : HeapEdge := ⟨"property", NameOrIndex.str "p", 7⟩

/-- Second edge of the rootless retain cycle fixture. -/
def c7edge87 : HeapEdge := ⟨"property", NameOrIndex.str "q", 0⟩

/-- A rootless snapshot whose two nodes retain each other: the retained-by
graph is a cycle and no node is the GC-roots node. -/
def c7cyc : HeapSnapshot :=
  { nodes := [⟨7, "object", "P", 16, 1, 0⟩, ⟨8, "object", "Q", 16, 1, 0⟩],
    edges := [c7edge78, c7edge87],
    retained_by := [(7, 8, c7edge78), (8, 7, c7edge87)] }

open CDPClient

/-- The behaviour asserted by the specification for `close()`: every stored
pending-result slot is failed (its future rejected) by closing the session. -/
def closeFailsPending {α : Type} (st : CDPClient α) : Prop :=
  ∀ i fs, (i, fs) ∈ st.pending_requests → fs = FutureState.pending →
    ∃ msg, resolutionOf (close st) i = some (FutureState.rejected msg)

/-- A session with one command outstanding (id 1 pending, counter at 2). -/
def sessionOnePending : CDPClient Nat :=
  ⟨WsState.opened, 2, [(1, FutureState.pending)], [], false, none, []⟩

/-- A session with two commands outstanding (ids 1 and 2, counter at 3). -/
def sessionTwoPending : CDPClient Nat :=
  ⟨WsState.opened, 3, [(1, FutureState.pending), (2, FutureState.pending)], [],
   false, none, []⟩

/-- A freshly connected session with nothing outstanding. -/
def sessionIdle : CDPClient Nat :=
  ⟨WsState.opened, 1, [], [], false, none, []⟩

/-- The CPU profile shape of the specification example: a root node with
children A and B (ids 1, 2, 3), with a parameterised sample sequence. -/
def triangleProfile (samples : List Nat) : CPUProfile :=
  { nodes := [⟨1, "(root)", "0", "", -1, -1, 3, [2, 3], "", ""⟩,
              ⟨2, "A", "1", "file:///app.ts", 10, 0, 5, [], "", ""⟩,
              ⟨3, "B", "1", "file:///app.ts", 20, 0, 2, [], "", ""⟩]
    start_time := 0
    end_time := 1000000
    samples := samples
    time_deltas := [] }

/-- The specification's example sample sequence
`[root, A, A, A, A, A, B, B, root, root]`. -/
def exampleSamples : List Nat := [1, 2, 2, 2, 2, 2, 3, 3, 1, 1]

/-- The specification's example profile. -/
def exampleProfile : CPUProfile := triangleProfile exampleSamples

/-- A profile whose children graph is cyclic (1 ↔ 2). -/
def cyclicProfile : CPUProfile :=
  { nodes := [⟨1, "f", "0", "", 0, 0, 0, [2], "", ""⟩,
              ⟨2, "g", "0", "", 0, 0, 0, [1], "", ""⟩]
    start_time := 0
    end_time := 0
    samples := [1, 2, 1]
    time_deltas := [] }

/-- The grouping key of a leak row. -/
def leakKey (r : LeakRow) : String × String := (r.node_type, r.name)

/-- Heap node for the leak counterexample: one 3 MiB object. -/
def leakyNode : HeapNode := ⟨1, "object", "Leaky", 3145728, 0, 0⟩

/-- Snapshot series in which the group appears (+3 MiB) between the first
two snapshots and disappears again between the last two. -/
def leakSeries : List (List HeapNode) := [[], [leakyNode], []]

/-- Heap node for the single-added-object example: one object of size 200. -/
def node200 : HeapNode := ⟨7, "object", "Widget", 200, 0, 0⟩

/-- A CPU profile payload whose sample sequence references the unknown node
id 999 (the only parsed node has id 1). -/
def unknownSamplePayload : ProfilePayload :=
  { startTime := 0
    endTime := 0
    nodes := [⟨1, "main", "0", "", 0, 0, 1, [], "", ""⟩]
    samples := [999]
    timeDeltas := [100] }

/-! ## Helper lemmas -/

theorem find?_append_none {α : Type} (p : α → Bool) (l₁ l₂ : List α)
    (h : l₁.find? p = none) : (l₁ ++ l₂).find? p = l₂.find? p := by
  induction l₁ with
  | nil => rfl
  | cons a l ih =>
    rw [List.cons_append]
    cases hpa : p a with
    | true => simp [List.find?_cons_of_pos _ hpa] at h
    | false =>
      rw [List.find?_cons_of_neg _ (by simp [hpa])] at h
      rw [List.find?_cons_of_neg _ (by simp [hpa])]
      exact ih h

theorem find?_map_key {α : Type} (g : α → α) (p : α → Bool)
    (hp : ∀ e, p (g e) = p e) (l : List α) :
    (l.map g).find? p = (l.find? p).map g := by
  induction l with
  | nil => rfl
  | cons a l ih =>
    rw [List.map_cons]
    cases hpa : p a with
    | true =>
      rw [List.find?_cons_of_pos _ (by rw [hp]; exact hpa),
        List.find?_cons_of_pos _ hpa]
      rfl
    | false =>
      rw [List.find?_cons_of_neg _ (by simp [hp, hpa]),
        List.find?_cons_of_neg _ (by simp [hpa])]
      exact ih

theorem getHandlers_send {α : Type} (st : CDPClient α) (name : String) :
    getHandlers (send_command st).2 name = getHandlers st name := rfl

theorem getHandlers_on_event_self {α : Type} (st : CDPClient α) (n : String)
    (h : Nat) : getHandlers (on_event st n h) n = getHandlers st n ++ [h] := by
  unfold on_event getHandlers
  cases hfind : st.event_handlers.find? (fun e => e.1 = n) with
  | none =>
    simp only [hfind, Option.isSome_none, Bool.false_eq_true, if_false,
      Option.map_none, Option.getD_none, List.nil_append]
    rw [find?_append_none _ _ _ hfind]
    simp
  | some e =>
    have hkey : (e.1 = n) = True := by
      have := List.find?_some hfind
      simpa using this
    simp only [hfind, Option.isSome_some, if_true]
    rw [find?_map_key _ _ (fun e' => by by_cases he : e'.1 = n <;> simp [he])]
    rw [hfind]
    simp only [Option.map_some', Option.getD_some]
    have : e.1 = n := by simpa using hkey
    simp [this]

theorem getHandlers_on_event_other {α : Type} (st : CDPClient α) (n n' : String)
    (h : Nat) (hne : n' ≠ n) :
    getHandlers (on_event st n h) n' = getHandlers st n' := by
  unfold on_event getHandlers
  cases hfind : st.event_handlers.find? (fun e => e.1 = n) with
  | none =>
    simp only [hfind, Option.isSome_none, Bool.false_eq_true, if_false]
    cases hfind2 : st.event_handlers.find? (fun e => e.1 = n') with
    | none =>
      rw [find?_append_none _ _ _ hfind2]
      simp [hne.symm]
    | some e2 =>
      rw [List.find?_append, hfind2]
      simp
  | some e =>
    simp only [hfind, Option.isSome_some, if_true]
    rw [find?_map_key _ _ (fun e' => by by_cases he : e'.1 = n' <;>
      by_cases he2 : e'.1 = n <;> simp [he, he2] <;> simp_all)]
    cases hfind2 : st.event_handlers.find? (fun e => e.1 = n') with
    | none => simp
    | some e2 =>
      have hkey : e2.1 = n' := by simpa using List.find?_some hfind2
      simp only [Option.map_some', Option.getD_some]
      rw [if_neg (by rw [hkey]; exact hne)]

theorem getHandlers_remove_self {α : Type} (st : CDPClient α) (n : String)
    (h : Nat) (hm : h ∈ getHandlers st n) :
    getHandlers (remove_handler st n h) n = (getHandlers st n).erase h := by
  unfold remove_handler
  rw [if_pos hm]
  show (((List.find? _ _).map Prod.snd)).getD [] = _
  rw [find?_map_key _ _ (fun e' => by by_cases he : e'.1 = n <;> simp [he])]
  unfold getHandlers
  cases hfind : st.event_handlers.find? (fun e => e.1 = n) with
  | none => simp
  | some e =>
    have hkey : e.1 = n := by simpa using List.find?_some hfind
    simp [hkey]

theorem getHandlers_remove_other {α : Type} (st : CDPClient α) (n n' : String)
    (h : Nat) (hne : n' ≠ n) :
    getHandlers (remove_handler st n h) n' = getHandlers st n' := by
  unfold remove_handler
  by_cases hm : h ∈ getHandlers st n
  · rw [if_pos hm]
    show (((List.find? _ _).map Prod.snd)).getD [] = _
    rw [find?_map_key _ _ (fun e' => by by_cases he : e'.1 = n' <;>
      by_cases he2 : e'.1 = n <;> simp [he, he2] <;> simp_all)]
    unfold getHandlers
    cases hfind : st.event_handlers.find? (fun e => e.1 = n') with
    | none => simp
    | some e =>
      have hkey : e.1 = n' := by simpa using List.find?_some hfind
      simp only [Option.map_some', Option.getD_some]
      rw [if_neg (by rw [hkey]; exact hne)]
  · rw [if_neg hm]

theorem mem_pendingIds_iff {α : Type} (st : CDPClient α) (i : Nat) :
    i ∈ pendingIds st ↔
      (st.pending_requests.find? (fun e => e.1 = i)).isSome := by
  simp only [pendingIds, List.mem_map, List.find?_isSome, decide_eq_true_eq]

/-! ## Claim C1: `close()` -/

/-- C1 (counterexample).  The claim states that `close()` fails every
outstanding command with `SessionClosedError`.  On a session with one
outstanding command, `close` resolves nothing: it only closes the websocket —
no `SessionClosedError` exists anywhere in the code, and the pending future
is never rejected, so the caller stays suspended. -/
theorem C1_close_counterexample : ¬ closeFailsPending sessionOnePending := by
  intro hclaim
  obtain ⟨msg, hmsg⟩ :=
    hclaim 1 FutureState.pending (List.mem_singleton.mpr rfl) rfl
  simp [resolutionOf, close, sessionOnePending] at hmsg

/-- C1 (amended).  `close()` closes the transport and is idempotent (a second
call has no further effect), but it does not resolve any pending-result slot:
the pending map and the log of future resolutions are untouched, so
outstanding commands are left suspended rather than failed with
`SessionClosedError`. -/
theorem C1_close_amended {α : Type} (st : CDPClient α) :
    (close st).pending_requests = st.pending_requests ∧
    (close st).resolutions = st.resolutions ∧
    close (close st) = close st := by
  cases h : st.ws with
  | noWs => simp [close, h]
  | opened => simp [close, h]
  | closed => simp [close, h]

/-! ## Claim C6: independent response routing -/

/-- C6.  With two distinct ids in flight, dispatching the two responses in
either wire order (the order is arbitrary since `i1`, `i2` are symmetric)
resolves each future with exactly the outcome of the response carrying its
own id, and removes both slots from the pending map.  Moreover the id counter
only ever hands out fresh ids: under the counter invariant, a newly allocated
id is not in flight, the invariant is preserved, and two consecutive
allocations differ. -/
theorem C6_response_routing {α : Type} (st : CDPClient α) (i1 i2 : Nat)
    (e1 e2 : Option String) (v1 v2 : α)
    (h1 : i1 ∈ pendingIds st) (h2 : i2 ∈ pendingIds st) (hne : i1 ≠ i2) :
    (resolutionOf (handle_message
        (handle_message st (Message.response i2 e2 v2))
        (Message.response i1 e1 v1)) i1 = some (respOutcome e1 v1) ∧
     resolutionOf (handle_message
        (handle_message st (Message.response i2 e2 v2))
        (Message.response i1 e1 v1)) i2 = some (respOutcome e2 v2) ∧
     i1 ∉ pendingIds (handle_message
        (handle_message st (Message.response i2 e2 v2))
        (Message.response i1 e1 v1)) ∧
     i2 ∉ pendingIds (handle_message
        (handle_message st (Message.response i2 e2 v2))
        (Message.response i1 e1 v1))) ∧
    (∀ st' : CDPClient α, idsBounded st' →
      (send_command st').1 ∉ pendingIds st' ∧
      idsBounded (send_command st').2 ∧
      (send_command (send_command st').2).1 ≠ (send_command st').1) := by
  have hf2 : (st.pending_requests.find? (fun e => e.1 = i2)).isSome :=
    (mem_pendingIds_iff st i2).mp h2
  have hstep1 : handle_message st (Message.response i2 e2 v2) =
      { st with
        pending_requests := st.pending_requests.filter (fun e => e.1 ≠ i2)
        resolutions := st.resolutions ++ [(i2, respOutcome e2 v2)] } := by
    simp [handle_message, handle_response, hf2]
  have h1' : i1 ∈ pendingIds
      (handle_message st (Message.response i2 e2 v2)) := by
    rw [hstep1]
    simp only [pendingIds, List.mem_map] at h1 ⊢
    obtain ⟨e, he, hfst⟩ := h1
    exact ⟨e, List.mem_filter.mpr ⟨he, by simp only [hfst, decide_eq_true_eq]; exact hne⟩, hfst⟩
  have hf1 : (((handle_message st (Message.response i2 e2 v2)).pending_requests).find?
      (fun e => e.1 = i1)).isSome :=
    (mem_pendingIds_iff _ i1).mp h1'
  have hstep2 : handle_message
      (handle_message st (Message.response i2 e2 v2)) (Message.response i1 e1 v1) =
      { st with
        pending_requests := (st.pending_requests.filter (fun e => e.1 ≠ i2)).filter
          (fun e => e.1 ≠ i1)
        resolutions := (st.resolutions ++ [(i2, respOutcome e2 v2)]) ++
          [(i1, respOutcome e1 v1)] } := by
    rw [show handle_message (handle_message st (Message.response i2 e2 v2))
        (Message.response i1 e1 v1) =
        handle_response (handle_message st (Message.response i2 e2 v2)) i1 e1 v1 from rfl]
    unfold handle_response
    rw [if_pos hf1, hstep1]
  refine ⟨⟨?_, ?_, ?_, ?_⟩, ?_⟩
  · rw [hstep2]
    simp [resolutionOf, List.find?_cons_of_pos]
  · rw [hstep2]
    simp only [resolutionOf, List.reverse_append, List.reverse_cons,
      List.reverse_nil, List.nil_append, List.cons_append, List.singleton_append]
    rw [List.find?_cons_of_neg _ (by simp only [decide_eq_true_eq]; exact hne),
      List.find?_cons_of_pos _ (by simp)]
    rfl
  · rw [hstep2]
    simp only [pendingIds, List.mem_map]
    rintro ⟨e, he, hfst⟩
    have := (List.mem_filter.mp he).2
    simp [hfst] at this
  · rw [hstep2]
    simp only [pendingIds, List.mem_map]
    rintro ⟨e, he, hfst⟩
    have := (List.mem_filter.mp (List.mem_filter.mp he).1).2
    simp [hfst] at this
  · intro st' hbound
    refine ⟨?_, ?_, ?_⟩
    · intro hmem
      simp only [pendingIds, List.mem_map] at hmem
      obtain ⟨e, he, hfst⟩ := hmem
      have := hbound e he
      simp [send_command] at hfst
      omega
    · intro e he
      simp only [send_command, List.mem_append] at he
      rcases he with he | he
      · have := hbound e he
        simp [send_command]
        omega
      · simp only [List.mem_singleton] at he
        subst he
        simp [send_command]
    · simp [send_command]

/-- C6 (witness): the routing theorem applied to a session with ids 1 and 2
in flight and results 10 and 20. -/
theorem C6_response_routing_witness :
    (1 ∈ pendingIds sessionTwoPending ∧ 2 ∈ pendingIds sessionTwoPending ∧
      (1 : Nat) ≠ 2) ∧
    ((resolutionOf (handle_message
        (handle_message sessionTwoPending (Message.response 2 none 20))
        (Message.response 1 none 10)) 1 = some (respOutcome none 10) ∧
      resolutionOf (handle_message
        (handle_message sessionTwoPending (Message.response 2 none 20))
        (Message.response 1 none 10)) 2 = some (respOutcome none 20) ∧
      1 ∉ pendingIds (handle_message
        (handle_message sessionTwoPending (Message.response 2 none 20))
        (Message.response 1 none 10)) ∧
      2 ∉ pendingIds (handle_message
        (handle_message sessionTwoPending (Message.response 2 none 20))
        (Message.response 1 none 10))) ∧
    (∀ st' : CDPClient Nat, idsBounded st' →
      (send_command st').1 ∉ pendingIds st' ∧
      idsBounded (send_command st').2 ∧
      (send_command (send_command st').2).1 ≠ (send_command st').1)) :=
  ⟨⟨by decide, by decide, by decide⟩,
   C6_response_routing sessionTwoPending 1 2 none none 10 20
     (by decide) (by decide) (by decide)⟩

/-! ## Claim C5: heap-snapshot capture with no events -/

/-- C5.  A heap-snapshot capture during which no chunk and no progress event
is received (`events = []`) returns the empty string payload — the model is a
total function, so the capture terminates at the deadline without raising —
and the temporary chunk/progress subscriptions registered by the capture are
removed again on exit (the `finally` cleanup runs on success, timeout and
error paths alike), leaving every event name's handler list as it was.
`h_c`, `h_p` are the fresh closure tokens of the two temporary handlers. -/
theorem C5_capture_no_events {α : Type} (st : CDPClient α) (rp : Bool)
    (h_c h_p : Nat)
    (hc : h_c ∉ getHandlers st "HeapProfiler.addHeapSnapshotChunk")
    (hp : h_p ∉ getHandlers st "HeapProfiler.reportHeapSnapshotProgress") :
    (take_heap_snapshot st rp h_c h_p []).1 = "" ∧
    ∀ name, getHandlers (take_heap_snapshot st rp h_c h_p []).2 name =
      getHandlers st name := by
  have hdist : ("HeapProfiler.addHeapSnapshotChunk" : String) ≠
      "HeapProfiler.reportHeapSnapshotProgress" := by decide
  constructor
  · cases rp <;> rfl
  · intro name
    unfold take_heap_snapshot
    cases rp with
    | false =>
      simp only [Bool.false_eq_true, if_false]
      by_cases hn : name = "HeapProfiler.addHeapSnapshotChunk"
      · subst hn
        have hmem : h_c ∈ getHandlers
            ((send_command (on_event (send_command st).2
              "HeapProfiler.addHeapSnapshotChunk" h_c)).2)
            "HeapProfiler.addHeapSnapshotChunk" := by
          rw [getHandlers_send, getHandlers_on_event_self, getHandlers_send]
          simp
        rw [getHandlers_remove_self _ _ _ hmem, getHandlers_send,
          getHandlers_on_event_self, getHandlers_send,
          List.erase_append_right _ (by simpa using hc), List.erase_cons_head,
          List.append_nil]
      · rw [getHandlers_remove_other _ _ _ _ hn, getHandlers_send,
          getHandlers_on_event_other _ _ _ _ hn, getHandlers_send]
    | true =>
      simp only [if_true]
      by_cases hn : name = "HeapProfiler.addHeapSnapshotChunk"
      · subst hn
        have hmem : h_c ∈ getHandlers
            ((send_command (on_event (on_event (send_command st).2
              "HeapProfiler.addHeapSnapshotChunk" h_c)
              "HeapProfiler.reportHeapSnapshotProgress" h_p)).2)
            "HeapProfiler.addHeapSnapshotChunk" := by
          rw [getHandlers_send, getHandlers_on_event_other _ _ _ _ hdist,
            getHandlers_on_event_self, getHandlers_send]
          simp
        rw [getHandlers_remove_other _ _ _ _ hdist,
          getHandlers_remove_self _ _ _ hmem, getHandlers_send,
          getHandlers_on_event_other _ _ _ _ hdist,
          getHandlers_on_event_self, getHandlers_send,
          List.erase_append_right _ (by simpa using hc), List.erase_cons_head,
          List.append_nil]
      · by_cases hn2 : name = "HeapProfiler.reportHeapSnapshotProgress"
        · subst hn2
          have hmem : h_p ∈ getHandlers
              (remove_handler (send_command (on_event (on_event (send_command st).2
                "HeapProfiler.addHeapSnapshotChunk" h_c)
                "HeapProfiler.reportHeapSnapshotProgress" h_p)).2
                "HeapProfiler.addHeapSnapshotChunk" h_c)
              "HeapProfiler.reportHeapSnapshotProgress" := by
            rw [getHandlers_remove_other _ _ _ _ hdist.symm, getHandlers_send,
              getHandlers_on_event_self,
              getHandlers_on_event_other _ _ _ _ hdist.symm, getHandlers_send]
            simp
          rw [getHandlers_remove_self _ _ _ hmem,
            getHandlers_remove_other _ _ _ _ hdist.symm, getHandlers_send,
            getHandlers_on_event_self,
            getHandlers_on_event_other _ _ _ _ hdist.symm, getHandlers_send,
            List.erase_append_right _ (by simpa using hp), List.erase_cons_head,
            List.append_nil]
        · rw [getHandlers_remove_other _ _ _ _ hn2,
            getHandlers_remove_other _ _ _ _ hn, getHandlers_send,
            getHandlers_on_event_other _ _ _ _ hn2,
            getHandlers_on_event_other _ _ _ _ hn, getHandlers_send]

/-- C5 (witness): the capture theorem applied to an idle session with fresh
handler tokens 0 and 1, with progress reporting enabled. -/
theorem C5_capture_no_events_witness :
    ((0 : Nat) ∉ getHandlers sessionIdle "HeapProfiler.addHeapSnapshotChunk" ∧
     (1 : Nat) ∉ getHandlers sessionIdle "HeapProfiler.reportHeapSnapshotProgress") ∧
    ((take_heap_snapshot sessionIdle true 0 1 []).1 = "" ∧
     ∀ name, getHandlers (take_heap_snapshot sessionIdle true 0 1 []).2 name =
       getHandlers sessionIdle name) :=
  ⟨⟨by decide, by decide⟩,
   C5_capture_no_events sessionIdle true 0 1 (by decide) (by decide)⟩

/-! ## Claims C3, C4, C8: CPU profile model -/

theorem count_sum_of_mem123 (l : List Nat) (h : ∀ x ∈ l, x = 1 ∨ x = 2 ∨ x = 3) :
    l.count 1 + l.count 2 + l.count 3 = l.length := by
  induction l with
  | nil => rfl
  | cons a t ih =>
    have ha := h a (List.mem_cons_self a t)
    have ht := ih (fun x hx => h x (List.mem_cons_of_mem a hx))
    rcases ha with rfl | rfl | rfl <;> simp [List.count_cons] <;> omega

/-- C3 (counterexample).  For the specification's example profile (samples
`[root, A, A, A, A, A, B, B, root, root]`), `get_hot_functions` does not
rank A above B above the root with the root excluded: under either reading
of the claim (root absent, or root ranked last) the claimed ordering is
false — the code includes the root and, sorting by inclusive samples,
ranks it first. -/
theorem C3_hot_functions_counterexample :
    ¬ ((exampleProfile.get_hot_functions 20).map HotRow.function_name
        = ["A", "B"] ∨
       (exampleProfile.get_hot_functions 20).map HotRow.function_name
        = ["A", "B", "(root)"]) := by decide

/-- C3 (amended).  For the example profile, `total_samples = 10`,
inclusive(root) = 10, inclusive(A) = 5, inclusive(B) = 2, and
`get_hot_functions` ranks the nodes by inclusive count descending with the
root node included and first: root above A above B. -/
theorem C3_hot_functions_amended :
    exampleProfile.total_samples = 10 ∧
    exampleProfile.inclusive_samples 1 = 10 ∧
    exampleProfile.inclusive_samples 2 = 5 ∧
    exampleProfile.inclusive_samples 3 = 2 ∧
    (exampleProfile.get_hot_functions 20).map HotRow.function_name
      = ["(root)", "A", "B"] ∧
    (exampleProfile.get_hot_functions 20).map HotRow.total_samples
      = [10, 5, 2] :=
  ⟨by decide, by decide, by decide, by decide, by decide, by decide⟩

/-- C4 (counterexample).  Constructing a CPU profile from a payload whose
sample sequence contains an id (999) resolving to no parsed node does not
fail: `CPUProfile.__init__` performs no validation (no `ParseError` exists in
the code), so the constructed profile simply violates the resolution
invariant the specification claims is enforced. -/
theorem C4_parse_counterexample :
    ¬ samplesResolve (mkCPUProfile unknownSamplePayload) := by decide

/-- C4 (amended).  Construction always succeeds: `total_samples` counts the
whole sample sequence including unresolvable ids; for the payload with the
unknown sample id 999, the id resolves to no node, it is still counted by
`sample_counts`, and it contributes to no node's inclusive count (node 1 has
inclusive count 0). -/
theorem C4_parse_amended :
    (∀ pd : ProfilePayload,
      (mkCPUProfile pd).total_samples = pd.samples.length) ∧
    (mkCPUProfile unknownSamplePayload).node_by_id 999 = none ∧
    (mkCPUProfile unknownSamplePayload).sample_counts 999 = 1 ∧
    (mkCPUProfile unknownSamplePayload).inclusive_samples 1 = 0 :=
  ⟨fun _ => rfl, by decide, by decide, by decide⟩

/-- C8.  Inclusive-sample computation: for the root/A/B profile with any
sample sequence drawn from the three ids, inclusive(root) equals the whole
sequence length (its own occurrences plus its children's), and inclusive(A),
inclusive(B) equal their own occurrence counts; a node already in the
visited set contributes zero (the cycle guard), and on a cyclic children
graph (1 ↔ 2) the computation terminates with each node's inclusive count
collecting both self counts once. -/
theorem C8_inclusive_samples (samples : List Nat)
    (hs : ∀ x ∈ samples, x = 1 ∨ x = 2 ∨ x = 3) :
    ((triangleProfile samples).inclusive_samples 1 = samples.length ∧
     (triangleProfile samples).inclusive_samples 2 = samples.count 2 ∧
     (triangleProfile samples).inclusive_samples 3 = samples.count 3) ∧
    (∀ (p : CPUProfile) (fuel nid : Nat) (visited : List Nat), nid ∈ visited →
      inclGo p (fuel + 1) nid visited = some (0, visited)) ∧
    (cyclicProfile.inclusive_samples 1 = 3 ∧
     cyclicProfile.inclusive_samples 2 = 3) := by
  refine ⟨⟨?_, ?_, ?_⟩, ?_, by decide, by decide⟩
  · have hval : (triangleProfile samples).inclusive_samples 1 =
        samples.count 1 + samples.count 2 + samples.count 3 := rfl
    rw [hval]
    exact count_sum_of_mem123 samples hs
  · rfl
  · rfl
  · intro p fuel nid visited h
    simp [inclGo, h]

/-- C8 (witness): the inclusive-sample theorem applied to the example sample
sequence. -/
theorem C8_inclusive_samples_witness :
    (∀ x ∈ exampleSamples, x = 1 ∨ x = 2 ∨ x = 3) ∧
    (((triangleProfile exampleSamples).inclusive_samples 1 = exampleSamples.length ∧
      (triangleProfile exampleSamples).inclusive_samples 2 = exampleSamples.count 2 ∧
      (triangleProfile exampleSamples).inclusive_samples 3 = exampleSamples.count 3) ∧
     (∀ (p : CPUProfile) (fuel nid : Nat) (visited : List Nat), nid ∈ visited →
       inclGo p (fuel + 1) nid visited = some (0, visited)) ∧
     (cyclicProfile.inclusive_samples 1 = 3 ∧
      cyclicProfile.inclusive_samples 2 = 3)) :=
  ⟨by decide, C8_inclusive_samples exampleSamples (by decide)⟩

/-! ## Support lemmas for the snapshot diff engine (claims C9, C2) -/

theorem mem_dedupFirstGo {α : Type} [DecidableEq α] (l : List α) :
    ∀ (seen : List α) (a : α), a ∈ dedupFirstGo l seen ↔ a ∈ l ∧ a ∉ seen := by
  induction l with
  | nil => intro seen a; simp [dedupFirstGo]
  | cons x xs ih =>
    intro seen a
    unfold dedupFirstGo
    by_cases hx : x ∈ seen
    · rw [if_pos hx, ih]
      constructor
      · rintro ⟨ha, hs⟩
        exact ⟨List.mem_cons_of_mem _ ha, hs⟩
      · rintro ⟨ha, hs⟩
        rcases List.mem_cons.mp ha with rfl | ha
        · exact absurd hx hs
        · exact ⟨ha, hs⟩
    · rw [if_neg hx]
      constructor
      · intro hmem
        rcases List.mem_cons.mp hmem with rfl | hmem
        · exact ⟨List.mem_cons_self _ _, hx⟩
        · obtain ⟨ha, hs⟩ := (ih _ _).mp hmem
          refine ⟨List.mem_cons_of_mem _ ha, ?_⟩
          intro hseen
          exact hs (List.mem_cons_of_mem _ hseen)
      · rintro ⟨ha, hs⟩
        rcases List.mem_cons.mp ha with rfl | ha
        · exact List.mem_cons_self _ _
        · by_cases hax : a = x
          · subst hax
            exact List.mem_cons_self _ _
          · refine List.mem_cons_of_mem _ ((ih _ _).mpr ⟨ha, ?_⟩)
            intro hmem
            rcases List.mem_cons.mp hmem with rfl | hmem
            · exact hax rfl
            · exact hs hmem

theorem mem_dedupFirst {α : Type} [DecidableEq α] (l : List α) (a : α) :
    a ∈ dedupFirst l ↔ a ∈ l := by
  unfold dedupFirst
  rw [mem_dedupFirstGo]
  simp

theorem nodup_dedupFirstGo {α : Type} [DecidableEq α] (l : List α) :
    ∀ seen : List α, (dedupFirstGo l seen).Nodup := by
  induction l with
  | nil => intro seen; simp [dedupFirstGo]
  | cons x xs ih =>
    intro seen
    unfold dedupFirstGo
    by_cases hx : x ∈ seen
    · rw [if_pos hx]
      exact ih seen
    · rw [if_neg hx]
      refine List.Nodup.cons ?_ (ih (x :: seen))
      intro hmem
      exact ((mem_dedupFirstGo xs _ x).mp hmem).2 (List.mem_cons_self _ _)

theorem nodup_dedupFirst {α : Type} [DecidableEq α] (l : List α) :
    (dedupFirst l).Nodup := nodup_dedupFirstGo l []

theorem perm_insertDescBy {α : Type} (lt : α → α → Bool) (r : α) (l : List α) :
    (insertDescBy lt r l).Perm (r :: l) := by
  induction l with
  | nil => exact List.Perm.refl _
  | cons x xs ih =>
    unfold insertDescBy
    by_cases hx : lt x r
    · rw [if_pos hx]
    · rw [if_neg hx]
      exact (ih.cons x).trans (List.Perm.swap r x xs)

theorem perm_sortDescBy {α : Type} (lt : α → α → Bool) (l : List α) :
    (sortDescBy lt l).Perm l := by
  induction l with
  | nil => exact List.Perm.refl _
  | cons x xs ih =>
    exact (perm_insertDescBy lt x (sortDescBy lt xs)).trans (ih.cons x)

theorem mem_insertDescBy {α : Type} (lt : α → α → Bool) (r a : α) (l : List α) :
    a ∈ insertDescBy lt r l ↔ a = r ∨ a ∈ l := by
  rw [(perm_insertDescBy lt r l).mem_iff]
  simp

theorem pairwise_insertDescBy {α : Type} (lt : α → α → Bool)
    (hasym : ∀ a b, lt a b = true → lt b a = false)
    (htrans : ∀ a b c, lt a b = true → lt b c = true → lt a c = true)
    (r : α) (l : List α) (hl : l.Pairwise (fun a b => lt a b = false)) :
    (insertDescBy lt r l).Pairwise (fun a b => lt a b = false) := by
  induction l with
  | nil => simp [insertDescBy]
  | cons x xs ih =>
    rcases List.pairwise_cons.mp hl with ⟨hx, hxs⟩
    unfold insertDescBy
    by_cases hlt : lt x r
    · rw [if_pos hlt]
      refine List.pairwise_cons.mpr ⟨?_, hl⟩
      intro y hy
      rcases List.mem_cons.mp hy with rfl | hy
      · exact hasym _ _ hlt
      · cases hry : lt r y with
        | false => rfl
        | true =>
          have htr := htrans _ _ _ hlt hry
          rw [hx y hy] at htr
          cases htr
    · rw [if_neg hlt]
      refine List.pairwise_cons.mpr ⟨?_, ih hxs⟩
      intro y hy
      rcases (mem_insertDescBy lt r y xs).mp hy with rfl | hy
      · exact Bool.eq_false_iff.mpr hlt
      · exact hx y hy

theorem pairwise_sortDescBy {α : Type} (lt : α → α → Bool)
    (hasym : ∀ a b, lt a b = true → lt b a = false)
    (htrans : ∀ a b c, lt a b = true → lt b c = true → lt a c = true)
    (l : List α) :
    (sortDescBy lt l).Pairwise (fun a b => lt a b = false) := by
  induction l with
  | nil => simp [sortDescBy]
  | cons x xs ih => exact pairwise_insertDescBy lt hasym htrans x _ ih

theorem filterMap_eq_singleton_of {α β : Type} (f : α → Option β) (l : List α)
    (a : α) (b : β) (hnd : l.Nodup) (ha : a ∈ l) (hfa : f a = some b)
    (hother : ∀ x ∈ l, x ≠ a → f x = none) : l.filterMap f = [b] := by
  induction l with
  | nil => cases ha
  | cons x xs ih =>
    rcases List.pairwise_cons.mp hnd with ⟨hxnotin, hndxs⟩
    rcases List.mem_cons.mp ha with rfl | ha
    · rw [List.filterMap_cons, hfa]
      have hnil : xs.filterMap f = [] := by
        rw [List.filterMap_eq_nil_iff]
        intro y hy
        exact hother y (List.mem_cons_of_mem _ hy) (fun h => hxnotin y hy h.symm)
      rw [hnil]
    · have hxa : x ≠ a := hxnotin a ha
      rw [List.filterMap_cons, hother x (List.mem_cons_self _ _) hxa]
      exact ih hndxs ha (fun y hy hya => hother y (List.mem_cons_of_mem _ hy) hya)

theorem rowKey_mkCompareRow (before after : List HeapNode) (k : String × String) :
    rowKey (mkCompareRow before after k) = k := rfl

theorem compare_snapshots_eq (before after : List HeapNode) :
    compare_snapshots before after =
      sortDescBy (fun a b => a.size_delta < b.size_delta)
        ((dedupFirst (before.map nodeKey ++ after.map nodeKey)).filterMap
          (fun k => if 0 < countDelta before after k ∨ 0 < sizeDelta before after k
            then some (mkCompareRow before after k) else none)) := rfl

theorem mem_map_nodeKey_of_countKey_pos (nodes : List HeapNode)
    (k : String × String) (h : 0 < countKey nodes k) : k ∈ nodes.map nodeKey := by
  unfold countKey at h
  rw [List.length_pos] at h
  obtain ⟨n, hn⟩ := List.exists_mem_of_ne_nil _ h
  rcases List.mem_filter.mp hn with ⟨hmem, hkey⟩
  exact List.mem_map.mpr ⟨n, hmem, by simpa using hkey⟩

theorem mem_map_nodeKey_of_sizeKey_pos (nodes : List HeapNode)
    (k : String × String) (h : 0 < sizeKey nodes k) : k ∈ nodes.map nodeKey := by
  by_contra hk
  have hnil : nodes.filter (fun n => nodeKey n = k) = [] := by
    rw [List.filter_eq_nil_iff]
    intro n hn
    simp only [decide_eq_true_eq]
    intro he
    exact hk (List.mem_map.mpr ⟨n, hn, he⟩)
  unfold sizeKey at h
  rw [hnil] at h
  simp at h

theorem mem_keys_of_delta_pos (before after : List HeapNode) (k : String × String)
    (h : 0 < countDelta before after k ∨ 0 < sizeDelta before after k) :
    k ∈ before.map nodeKey ++ after.map nodeKey := by
  rcases h with h | h
  · unfold countDelta at h
    have hpos : 0 < countKey after k := by omega
    exact List.mem_append.mpr (Or.inr (mem_map_nodeKey_of_countKey_pos _ _ hpos))
  · unfold sizeDelta at h
    have hpos : 0 < sizeKey after k := by omega
    exact List.mem_append.mpr (Or.inr (mem_map_nodeKey_of_sizeKey_pos _ _ hpos))

theorem filterMap_cond_filter_key (before after : List HeapNode)
    (k : String × String) :
    ∀ keys : List (String × String), keys.Nodup →
    ((keys.filterMap (fun q =>
      if 0 < countDelta before after q ∨ 0 < sizeDelta before after q
      then some (mkCompareRow before after q) else none)).filter
        (fun r => rowKey r = k)) =
      if k ∈ keys ∧ (0 < countDelta before after k ∨ 0 < sizeDelta before after k)
      then [mkCompareRow before after k] else []
  | [], _ => by simp
  | a :: t, hnd => by
    rcases List.pairwise_cons.mp hnd with ⟨hanotin, hndt⟩
    have iht := filterMap_cond_filter_key before after k t hndt
    rw [List.filterMap_cons]
    by_cases hcond : 0 < countDelta before after a ∨ 0 < sizeDelta before after a
    · rw [if_pos hcond]
      by_cases hak : a = k
      · subst hak
        rw [List.filter_cons_of_pos (by simp [rowKey_mkCompareRow]), iht]
        have hnotmem : a ∉ t := fun hmem => hanotin a hmem rfl
        rw [if_neg (fun hc => hnotmem hc.1), if_pos ⟨List.mem_cons_self _ _, hcond⟩]
      · rw [List.filter_cons_of_neg (by simp [rowKey_mkCompareRow, hak]), iht]
        by_cases hkt : k ∈ t ∧ (0 < countDelta before after k ∨ 0 < sizeDelta before after k)
        · rw [if_pos hkt, if_pos ⟨List.mem_cons_of_mem _ hkt.1, hkt.2⟩]
        · rw [if_neg hkt, if_neg (fun hc => hkt ⟨(List.mem_cons.mp hc.1).resolve_left
            (fun he => hak he.symm), hc.2⟩)]
    · rw [if_neg hcond, iht]
      by_cases hkt : k ∈ t ∧ (0 < countDelta before after k ∨ 0 < sizeDelta before after k)
      · rw [if_pos hkt, if_pos ⟨List.mem_cons_of_mem _ hkt.1, hkt.2⟩]
      · rw [if_neg hkt]
        rw [if_neg]
        rintro ⟨hmem, hc⟩
        rcases List.mem_cons.mp hmem with rfl | hmem
        · exact hcond hc
        · exact hkt ⟨hmem, hc⟩

theorem compare_filter_key (before after : List HeapNode) (k : String × String) :
    (compare_snapshots before after).filter (fun r => rowKey r = k) =
      if 0 < countDelta before after k ∨ 0 < sizeDelta before after k then
        [mkCompareRow before after k]
      else [] := by
  rw [compare_snapshots_eq]
  have hperm := ((perm_sortDescBy (fun a b : CompareRow => a.size_delta < b.size_delta)
      ((dedupFirst (before.map nodeKey ++ after.map nodeKey)).filterMap
        (fun q => if 0 < countDelta before after q ∨ 0 < sizeDelta before after q
          then some (mkCompareRow before after q) else none)))).filter
      (fun r => rowKey r = k)
  rw [filterMap_cond_filter_key before after k _ (nodup_dedupFirst _)] at hperm
  by_cases hcond : 0 < countDelta before after k ∨ 0 < sizeDelta before after k
  · have hmem : k ∈ dedupFirst (before.map nodeKey ++ after.map nodeKey) :=
      (mem_dedupFirst _ _).mpr (mem_keys_of_delta_pos before after k hcond)
    rw [if_pos ⟨hmem, hcond⟩] at hperm
    rw [if_pos hcond]
    exact List.perm_singleton.mp hperm
  · rw [if_neg (fun hc => hcond hc.2)] at hperm
    rw [if_neg hcond]
    exact List.perm_nil.mp hperm

theorem mem_compare_iff (before after : List HeapNode) (k : String × String) :
    (∃ r ∈ compare_snapshots before after, rowKey r = k) ↔
      (0 < countDelta before after k ∨ 0 < sizeDelta before after k) := by
  constructor
  · rintro ⟨r, hr, hk⟩
    by_contra hcond
    have hfk := compare_filter_key before after k
    rw [if_neg hcond] at hfk
    have hmem : r ∈ (compare_snapshots before after).filter
        (fun r => rowKey r = k) := List.mem_filter.mpr ⟨hr, by simpa using hk⟩
    rw [hfk] at hmem
    cases hmem
  · intro hcond
    have hfk := compare_filter_key before after k
    rw [if_pos hcond] at hfk
    refine ⟨mkCompareRow before after k, ?_, rfl⟩
    have hmem : mkCompareRow before after k ∈
        (compare_snapshots before after).filter (fun r => rowKey r = k) := by
      rw [hfk]
      exact List.mem_singleton.mpr rfl
    exact (List.mem_filter.mp hmem).1

theorem countKey_append_single (before : List HeapNode) (n : HeapNode)
    (k : String × String) :
    countKey (before ++ [n]) k =
      countKey before k + (if nodeKey n = k then 1 else 0) := by
  unfold countKey
  rw [List.filter_append]
  by_cases h : nodeKey n = k <;> simp [h]

theorem sizeKey_append_single (before : List HeapNode) (n : HeapNode)
    (k : String × String) :
    sizeKey (before ++ [n]) k =
      sizeKey before k + (if nodeKey n = k then n.self_size else 0) := by
  unfold sizeKey
  rw [List.filter_append]
  by_cases h : nodeKey n = k <;> simp [h]

/-- C9.  `compare_snapshots` groups nodes by (type, name): a group has a row
in the output iff its count delta or size delta is positive; the output is
ordered by descending size delta; comparing a snapshot with itself yields an
empty delta set; and comparing a baseline with the baseline plus one added
object of size 200 yields exactly one row, for that object's (type, name),
with `count_delta = 1` and `size_delta = 200`. -/
theorem C9_compare_snapshots (before after S : List HeapNode) (n : HeapNode)
    (h200 : n.self_size = 200) :
    (∀ k, (∃ r ∈ compare_snapshots before after, rowKey r = k) ↔
      (0 < countDelta before after k ∨ 0 < sizeDelta before after k)) ∧
    (compare_snapshots before after).Pairwise
      (fun r1 r2 => r2.size_delta ≤ r1.size_delta) ∧
    compare_snapshots S S = [] ∧
    compare_snapshots before (before ++ [n]) =
      [⟨n.node_type, n.name, countKey before (nodeKey n),
        countKey before (nodeKey n) + 1, 1, sizeKey before (nodeKey n),
        sizeKey before (nodeKey n) + 200, 200⟩] := by
  refine ⟨fun k => mem_compare_iff before after k, ?_, ?_, ?_⟩
  · rw [compare_snapshots_eq]
    have hp := pairwise_sortDescBy
      (fun a b : CompareRow => a.size_delta < b.size_delta)
      (fun a b h => by
        simp only [decide_eq_true_eq] at h
        simp only [decide_eq_false_iff_not]
        omega)
      (fun a b c h1 h2 => by
        simp only [decide_eq_true_eq] at h1 h2 ⊢
        omega)
      ((dedupFirst (before.map nodeKey ++ after.map nodeKey)).filterMap
        (fun q => if 0 < countDelta before after q ∨ 0 < sizeDelta before after q
          then some (mkCompareRow before after q) else none))
    refine hp.imp ?_
    intro a b h
    simp only [decide_eq_false_iff_not] at h
    omega
  · rw [compare_snapshots_eq]
    have hnil : ((dedupFirst (S.map nodeKey ++ S.map nodeKey)).filterMap
        (fun q => if 0 < countDelta S S q ∨ 0 < sizeDelta S S q
          then some (mkCompareRow S S q) else none)) = [] := by
      rw [List.filterMap_eq_nil_iff]
      intro q _
      rw [if_neg]
      unfold countDelta sizeDelta
      omega
    rw [hnil]
    rfl
  · rw [compare_snapshots_eq]
    have hsingle : ((dedupFirst (before.map nodeKey ++
        (before ++ [n]).map nodeKey)).filterMap
        (fun q => if 0 < countDelta before (before ++ [n]) q ∨
            0 < sizeDelta before (before ++ [n]) q
          then some (mkCompareRow before (before ++ [n]) q) else none)) =
        [mkCompareRow before (before ++ [n]) (nodeKey n)] := by
      refine filterMap_eq_singleton_of _ _ (nodeKey n) _ (nodup_dedupFirst _)
        ?_ ?_ ?_
      · rw [mem_dedupFirst]
        refine List.mem_append.mpr (Or.inr ?_)
        rw [List.map_append]
        exact List.mem_append.mpr (Or.inr (by simp))
      · rw [if_pos]
        unfold countDelta
        rw [countKey_append_single, if_pos rfl]
        left
        push_cast
        omega
      · intro q _ hqn
        rw [if_neg]
        unfold countDelta sizeDelta
        rw [countKey_append_single, sizeKey_append_single,
          if_neg (fun h => hqn h.symm), if_neg (fun h => hqn h.symm)]
        omega
    rw [hsingle]
    show [mkCompareRow before (before ++ [n]) (nodeKey n)] = _
    unfold mkCompareRow countDelta sizeDelta
    rw [countKey_append_single, sizeKey_append_single, if_pos rfl, if_pos rfl,
      h200]
    have hcd : (↑(countKey before (nodeKey n) + 1) : Int) -
        (↑(countKey before (nodeKey n)) : Int) = 1 := by push_cast; ring
    have hsd : (↑(sizeKey before (nodeKey n) + 200) : Int) -
        (↑(sizeKey before (nodeKey n)) : Int) = 200 := by push_cast; ring
    rw [hcd, hsd]
    rfl

/-- C9 (witness): the comparison theorem applied to empty snapshot lists and
the concrete 200-byte object. -/
theorem C9_compare_snapshots_witness :
    node200.self_size = 200 ∧
    ((∀ k, (∃ r ∈ compare_snapshots [] [], rowKey r = k) ↔
       (0 < countDelta [] [] k ∨ 0 < sizeDelta [] [] k)) ∧
     (compare_snapshots [] []).Pairwise
       (fun r1 r2 => r2.size_delta ≤ r1.size_delta) ∧
     compare_snapshots [] [] = [] ∧
     compare_snapshots [] ([] ++ [node200]) =
       [⟨node200.node_type, node200.name, countKey [] (nodeKey node200),
         countKey [] (nodeKey node200) + 1, 1, sizeKey [] (nodeKey node200),
         sizeKey [] (nodeKey node200) + 200, 200⟩]) :=
  ⟨by decide, C9_compare_snapshots [] [] [] node200 (by decide)⟩

theorem trend_general (k : String × String) :
    ∀ L : List (List HeapNode × List HeapNode),
      (((L.map (fun p => compare_snapshots p.1 p.2)).flatten.filter
        (fun r => rowKey r = k)).map CompareRow.size_delta) =
      L.filterMap (fun p =>
        if 0 < countDelta p.1 p.2 k ∨ 0 < sizeDelta p.1 p.2 k then
          some (sizeDelta p.1 p.2 k) else none)
  | [] => rfl
  | p :: ps => by
    rw [List.map_cons, List.flatten_cons, List.filter_append, List.map_append,
      trend_general k ps, List.filterMap_cons, compare_filter_key p.1 p.2 k]
    by_cases hcond : 0 < countDelta p.1 p.2 k ∨ 0 < sizeDelta p.1 p.2 k
    · rw [if_pos hcond, if_pos hcond]
      rfl
    · rw [if_neg hcond, if_neg hcond]
      rfl

theorem growthTrend_eq (snapshots : List (List HeapNode)) (k : String × String) :
    growthTrend snapshots k =
      (consecutivePairs snapshots).filterMap (fun p =>
        if 0 < countDelta p.1 p.2 k ∨ 0 < sizeDelta p.1 p.2 k then
          some (sizeDelta p.1 p.2 k) else none) :=
  trend_general k (consecutivePairs snapshots)

theorem growthTrend_ne_nil_iff (snapshots : List (List HeapNode))
    (k : String × String) :
    growthTrend snapshots k ≠ [] ↔ k ∈ (pairwiseRows snapshots).map rowKey := by
  unfold growthTrend
  simp only [Ne, List.map_eq_nil_iff, List.filter_eq_nil_iff,
    decide_eq_true_eq, List.mem_map]
  push_neg
  constructor
  · rintro ⟨r, hr, hk⟩
    exact ⟨r, hr, hk⟩
  · rintro ⟨r, hr, hk⟩
    exact ⟨r, hr, hk⟩

theorem mem_detect_leaks_iff (snapshots : List (List HeapNode)) (t : Rat)
    (k : String × String) (h2 : 2 ≤ snapshots.length) :
    k ∈ (detect_leaks snapshots t).map leakKey ↔
      (growthTrend snapshots k ≠ [] ∧
       (∀ d ∈ growthTrend snapshots k, 0 < d) ∧
       t * 1024 * 1024 < (((growthTrend snapshots k).sum : Int) : Rat)) := by
  unfold detect_leaks
  rw [if_neg (by omega)]
  rw [((perm_sortDescBy _ _).map leakKey).mem_iff]
  simp only [List.mem_map, List.mem_filterMap]
  constructor
  · rintro ⟨r, ⟨q, hq, hiq⟩, hkey⟩
    by_cases hcond : (∀ d ∈ growthTrend snapshots q, 0 < d) ∧
        t * 1024 * 1024 < (((growthTrend snapshots q).sum : Int) : Rat)
    · rw [if_pos hcond] at hiq
      obtain rfl := Option.some.inj hiq
      have hqk : q = k := hkey
      subst hqk
      refine ⟨?_, hcond.1, hcond.2⟩
      rw [growthTrend_ne_nil_iff]
      exact (mem_dedupFirst _ _).mp hq
    · rw [if_neg hcond] at hiq
      cases hiq
  · rintro ⟨hne, hall, hsum⟩
    refine ⟨⟨k.1, k.2,
        (((growthTrend snapshots k).sum : Int) : Rat) / (1024 * 1024),
        ((((growthTrend snapshots k).sum : Int) : Rat) /
          ((growthTrend snapshots k).length : Rat)) / (1024 * 1024),
        (growthTrend snapshots k).length⟩, ⟨k, ?_, ?_⟩, ?_⟩
    · rw [mem_dedupFirst]
      exact (growthTrend_ne_nil_iff _ _).mp hne
    · rw [if_pos ⟨hall, hsum⟩]
    · rfl

/-- C2 (counterexample).  On the series empty → one 3 MiB "Leaky" object →
empty, with a 1 MB threshold, `detect_leaks` reports the ("object", "Leaky")
group even though its delta in the consecutive pair ([leaky], []) — a pair of
the series — is negative in both count and size.  This refutes the claim
that a group with a non-positive delta in even one consecutive comparison is
excluded: a pair in which the group shows no positive count or size delta
simply contributes no recorded delta and does not exclude the group. -/
theorem C2_detect_leaks_counterexample :
    ("object", "Leaky") ∈ (detect_leaks leakSeries 1).map leakKey ∧
    (([leakyNode], ([] : List HeapNode)) ∈ consecutivePairs leakSeries) ∧
    sizeDelta [leakyNode] [] ("object", "Leaky") < 0 ∧
    countDelta [leakyNode] [] ("object", "Leaky") < 0 := by
  refine ⟨?_, by decide, by decide, by decide⟩
  rw [mem_detect_leaks_iff leakSeries 1 _ (by decide)]
  refine ⟨by decide, by decide, ?_⟩
  have hsum : (growthTrend leakSeries ("object", "Leaky")).sum = 3145728 := by
    decide
  rw [hsum]
  norm_num

/-- C2 (amended).  For a series of two or more snapshots, `detect_leaks`
reports a (type, name) group iff (1) the group has a positive count or size
delta in at least one consecutive pairwise comparison, (2) its size delta is
positive in every consecutive comparison in which it has a positive count or
size delta, and (3) the size deltas summed over exactly those comparisons
exceed `threshold_mb * 1024 * 1024` bytes.  A consecutive pair in which the
group's count and size deltas are both non-positive records no delta and
does not exclude the group (contrary to the original claim). -/
theorem C2_detect_leaks_amended (snapshots : List (List HeapNode)) (t : Rat)
    (k : String × String) (h2 : 2 ≤ snapshots.length) :
    k ∈ (detect_leaks snapshots t).map leakKey ↔
      ((∃ p ∈ consecutivePairs snapshots,
          0 < countDelta p.1 p.2 k ∨ 0 < sizeDelta p.1 p.2 k) ∧
       (∀ p ∈ consecutivePairs snapshots,
          (0 < countDelta p.1 p.2 k ∨ 0 < sizeDelta p.1 p.2 k) →
            0 < sizeDelta p.1 p.2 k) ∧
       t * 1024 * 1024 <
         ((((consecutivePairs snapshots).filterMap (fun p =>
            if 0 < countDelta p.1 p.2 k ∨ 0 < sizeDelta p.1 p.2 k then
              some (sizeDelta p.1 p.2 k) else none)).sum : Int) : Rat)) := by
  rw [mem_detect_leaks_iff snapshots t k h2, growthTrend_eq]
  constructor
  · rintro ⟨hne, hall, hsum⟩
    refine ⟨?_, ?_, hsum⟩
    · obtain ⟨d, hd⟩ := List.exists_mem_of_ne_nil _ hne
      obtain ⟨p, hp, hip⟩ := List.mem_filterMap.mp hd
      by_cases hc : 0 < countDelta p.1 p.2 k ∨ 0 < sizeDelta p.1 p.2 k
      · exact ⟨p, hp, hc⟩
      · rw [if_neg hc] at hip
        cases hip
    · intro p hp hc
      exact hall _ (List.mem_filterMap.mpr ⟨p, hp, by rw [if_pos hc]⟩)
  · rintro ⟨⟨p, hp, hc⟩, hall, hsum⟩
    refine ⟨?_, ?_, hsum⟩
    · intro hnil
      have hmem : sizeDelta p.1 p.2 k ∈ (consecutivePairs snapshots).filterMap
          (fun p => if 0 < countDelta p.1 p.2 k ∨ 0 < sizeDelta p.1 p.2 k then
            some (sizeDelta p.1 p.2 k) else none) :=
        List.mem_filterMap.mpr ⟨p, hp, by rw [if_pos hc]⟩
      rw [hnil] at hmem
      cases hmem
    · intro d hd
      obtain ⟨p', hp', hip'⟩ := List.mem_filterMap.mp hd
      by_cases hc' : 0 < countDelta p'.1 p'.2 k ∨ 0 < sizeDelta p'.1 p'.2 k
      · rw [if_pos hc'] at hip'
        obtain rfl := Option.some.inj hip'
        exact hall p' hp' hc'
      · rw [if_neg hc'] at hip'
        cases hip'

/-- C2 (witness): the amended characterisation applied to the concrete
series and a 1 MB threshold. -/
theorem C2_detect_leaks_amended_witness :
    2 ≤ leakSeries.length ∧
    (("object", "Leaky") ∈ (detect_leaks leakSeries 1).map leakKey ↔
      ((∃ p ∈ consecutivePairs leakSeries,
          0 < countDelta p.1 p.2 ("object", "Leaky") ∨
          0 < sizeDelta p.1 p.2 ("object", "Leaky")) ∧
       (∀ p ∈ consecutivePairs leakSeries,
          (0 < countDelta p.1 p.2 ("object", "Leaky") ∨
           0 < sizeDelta p.1 p.2 ("object", "Leaky")) →
            0 < sizeDelta p.1 p.2 ("object", "Leaky")) ∧
       (1 : Rat) * 1024 * 1024 <
         ((((consecutivePairs leakSeries).filterMap (fun p =>
            if 0 < countDelta p.1 p.2 ("object", "Leaky") ∨
               0 < sizeDelta p.1 p.2 ("object", "Leaky") then
              some (sizeDelta p.1 p.2 ("object", "Leaky")) else none)).sum :
            Int) : Rat))) :=
  ⟨by decide, C2_detect_leaks_amended leakSeries 1 ("object", "Leaky") (by decide)⟩

theorem parse_nodes_ok_node_fields_pos (pl : HeapPayload) (ns : List HeapNode)
    (h : parse_nodes pl = Except.ok ns) : 0 < pl.node_fields.length := by
  by_contra hlen
  have hnil : pl.node_fields = [] := by
    cases hf : pl.node_fields with
    | nil => rfl
    | cons a t => rw [hf] at hlen; simp at hlen
  unfold parse_nodes at h
  rw [hnil] at h
  simp only [pyIndexOf, List.findIdx?_nil] at h
  cases h0 : pyIndex pl.node_types 0 with
  | ok v => rw [h0] at h; simp [bind, Except.bind] at h
  | error e => rw [h0] at h; simp [bind, Except.bind] at h

theorem retentionInner_ok (edges : List HeapEdge) (nodes : List HeapNode)
    (nfc : Nat) (hnfc : nfc ≠ 0) (srcId : Nat) :
    ∀ (k edge_idx : Nat) (acc : List (Nat × Nat × HeapEdge)),
      (∀ e ∈ acc, retentionEntryOk edges nodes nfc e) →
      ∃ out, retentionInner edges nodes nfc srcId k edge_idx acc = Except.ok out ∧
        ∀ e ∈ out.2, retentionEntryOk edges nodes nfc e
  | 0, edge_idx, acc, hacc => ⟨(edge_idx, acc), rfl, hacc⟩
  | k + 1, edge_idx, acc, hacc => by
    unfold retentionInner
    by_cases hlt : edge_idx < edges.length
    · rw [if_pos hlt]
      have hpy : pyIndex edges edge_idx = Except.ok (edges.get ⟨edge_idx, hlt⟩) := by
        unfold pyIndex
        rw [dif_pos hlt]
      have hdiv : pyDiv (edges.get ⟨edge_idx, hlt⟩).to_node nfc =
          Except.ok ((edges.get ⟨edge_idx, hlt⟩).to_node / nfc) := by
        unfold pyDiv
        rw [if_neg hnfc]
      rw [hpy]
      simp only [bind, Except.bind]
      rw [hdiv]
      refine retentionInner_ok edges nodes nfc hnfc srcId k (edge_idx + 1) _ ?_
      intro e he
      by_cases htgt : (edges.get ⟨edge_idx, hlt⟩).to_node / nfc < nodes.length
      · rw [dif_pos htgt] at he
        rcases List.mem_append.mp he with he | he
        · exact hacc e he
        · rcases List.mem_singleton.mp he with rfl
          exact ⟨List.get_mem _ _ _, htgt, rfl⟩
      · rw [dif_neg htgt] at he
        exact hacc e he
    · rw [if_neg hlt]
      exact retentionInner_ok edges nodes nfc hnfc srcId k edge_idx acc hacc

theorem retentionOuter_ok (edges : List HeapEdge) (allNodes : List HeapNode)
    (nfc : Nat) (hnfc : nfc ≠ 0) :
    ∀ (ns : List HeapNode) (edge_idx : Nat) (acc : List (Nat × Nat × HeapEdge)),
      (∀ e ∈ acc, retentionEntryOk edges allNodes nfc e) →
      ∃ out, retentionOuter edges allNodes nfc ns edge_idx acc = Except.ok out ∧
        ∀ e ∈ out, retentionEntryOk edges allNodes nfc e
  | [], _, acc, hacc => ⟨acc, rfl, hacc⟩
  | n :: rest, edge_idx, acc, hacc => by
    unfold retentionOuter
    obtain ⟨out1, hout1, hq1⟩ := retentionInner_ok edges allNodes nfc hnfc
      n.node_id n.edge_count edge_idx acc hacc
    rw [hout1]
    simp only [bind, Except.bind]
    exact retentionOuter_ok edges allNodes nfc hnfc rest out1.1 out1.2 hq1

/-- C10.  Building the retained-by index never reads past the end of the
parsed edge or node lists: whenever node and edge parsing succeeded, the
index construction returns `ok` (never an index error) — even when the sum
of declared edge counts exceeds the number of parsed edges, the surplus
iterations are skipped — the whole construction succeeds, and every recorded
entry comes from a parsed edge whose target offset lands inside the node
array (an out-of-range target contributes no entry). -/
theorem C10_retention_index_safe (pl : HeapPayload) (ns : List HeapNode)
    (es : List HeapEdge) (hn : parse_nodes pl = Except.ok ns)
    (he : parse_edges pl = Except.ok es) :
    ∃ idx, build_retention_index ns es pl.node_fields.length = Except.ok idx ∧
      mkHeapSnapshot pl = Except.ok ⟨ns, es, idx⟩ ∧
      ∀ ent ∈ idx, ent.2.2 ∈ es ∧
        ∃ hlt : ent.2.2.to_node / pl.node_fields.length < ns.length,
          ent.1 = (ns.get ⟨ent.2.2.to_node / pl.node_fields.length, hlt⟩).node_id := by
  have hnfc : pl.node_fields.length ≠ 0 :=
    Nat.pos_iff_ne_zero.mp (parse_nodes_ok_node_fields_pos pl ns hn)
  obtain ⟨out, hout, hq⟩ := retentionOuter_ok es ns pl.node_fields.length hnfc
    ns 0 [] (by simp)
  have hbuild : build_retention_index ns es pl.node_fields.length =
      Except.ok out := hout
  refine ⟨out, hbuild, ?_, fun ent hent => hq ent hent⟩
  simp only [mkHeapSnapshot, bind, Except.bind, hn, he, hbuild]

/-- C10 (witness): the safety theorem applied to a payload whose first node
declares five edges while only one was parsed. -/
theorem C10_retention_index_safe_witness :
    (parse_nodes samplePayload = Except.ok sampleNodes ∧
     parse_edges samplePayload = Except.ok sampleEdges) ∧
    (∃ idx, build_retention_index sampleNodes sampleEdges
        samplePayload.node_fields.length = Except.ok idx ∧
      mkHeapSnapshot samplePayload = Except.ok ⟨sampleNodes, sampleEdges, idx⟩ ∧
      ∀ ent ∈ idx, ent.2.2 ∈ sampleEdges ∧
        ∃ hlt : ent.2.2.to_node / samplePayload.node_fields.length <
            sampleNodes.length,
          ent.1 = (sampleNodes.get
            ⟨ent.2.2.to_node / samplePayload.node_fields.length, hlt⟩).node_id) :=
  ⟨⟨by rfl, by rfl⟩,
   C10_retention_index_safe samplePayload sampleNodes sampleEdges
     (by rfl) (by rfl)⟩

/-! ## Support lemmas for the retaining-path BFS (claim C7) -/

theorem bfs_nil (s : HeapSnapshot) (maxD : Nat) (visited : List Nat) :
    bfs s maxD visited [] = [] := by
  rw [bfs]

theorem bfs_skip (s : HeapSnapshot) (maxD : Nat) (visited : List Nat)
    (cur : Nat) (path : List (HeapNode × HeapEdge))
    (rest : List (Nat × List (HeapNode × HeapEdge)))
    (h : cur ∈ visited ∨ maxD < path.length) :
    bfs s maxD visited ((cur, path) :: rest) = bfs s maxD visited rest := by
  rw [bfs, dif_pos h]

theorem bfs_missing (s : HeapSnapshot) (maxD : Nat) (visited : List Nat)
    (cur : Nat) (path : List (HeapNode × HeapEdge))
    (rest : List (Nat × List (HeapNode × HeapEdge)))
    (hns : ¬(cur ∈ visited ∨ maxD < path.length))
    (h : s.node_by_id cur = none) :
    bfs s maxD visited ((cur, path) :: rest) =
      bfs s maxD (cur :: visited) rest := by
  rw [bfs, dif_neg hns]
  split
  · rfl
  · rename_i n2 heq
    rw [h] at heq
    cases heq

theorem bfs_root (s : HeapSnapshot) (maxD : Nat) (visited : List Nat)
    (cur : Nat) (path : List (HeapNode × HeapEdge))
    (rest : List (Nat × List (HeapNode × HeapEdge))) (n : HeapNode)
    (hns : ¬(cur ∈ visited ∨ maxD < path.length))
    (h : s.node_by_id cur = some n) (hroot : isGCRoot n = true) :
    bfs s maxD visited ((cur, path) :: rest) = path := by
  rw [bfs, dif_neg hns]
  split
  · rename_i heq
    rw [h] at heq
    cases heq
  · rename_i n2 heq
    rw [h] at heq
    obtain rfl := Option.some.inj heq
    rw [if_pos hroot]

theorem bfs_expand (s : HeapSnapshot) (maxD : Nat) (visited : List Nat)
    (cur : Nat) (path : List (HeapNode × HeapEdge))
    (rest : List (Nat × List (HeapNode × HeapEdge))) (n : HeapNode)
    (hns : ¬(cur ∈ visited ∨ maxD < path.length))
    (h : s.node_by_id cur = some n) (hroot : isGCRoot n = false) :
    bfs s maxD visited ((cur, path) :: rest) =
      bfs s maxD (cur :: visited) (rest ++ pushesOf s cur path) := by
  rw [bfs, dif_neg hns]
  split
  · rename_i heq
    rw [h] at heq
    cases heq
  · rename_i n2 heq
    rw [h] at heq
    obtain rfl := Option.some.inj heq
    rw [if_neg (by rw [hroot]; exact Bool.false_ne_true)]

theorem mem_pushesOf (s : HeapSnapshot) (cur : Nat)
    (path : List (HeapNode × HeapEdge)) (x : Nat × List (HeapNode × HeapEdge)) :
    x ∈ pushesOf s cur path ↔ ∃ rid e rn, (rid, e) ∈ s.retainersOf cur ∧
      s.node_by_id rid = some rn ∧ x = (rid, (rn, e) :: path) := by
  unfold pushesOf
  rw [List.mem_filterMap]
  constructor
  · rintro ⟨r, hr, hx⟩
    cases hnb : s.node_by_id r.1 with
    | none => rw [hnb] at hx; cases hx
    | some rn =>
      rw [hnb] at hx
      obtain rfl := Option.some.inj hx
      exact ⟨r.1, r.2, rn, hr, hnb, rfl⟩
  · rintro ⟨rid, e, rn, hmem, hnb, rfl⟩
    refine ⟨(rid, e), hmem, ?_⟩
    rw [hnb]

theorem length_of_mem_pushesOf (s : HeapSnapshot) (cur : Nat)
    (path : List (HeapNode × HeapEdge)) (x : Nat × List (HeapNode × HeapEdge))
    (hx : x ∈ pushesOf s cur path) : x.2.length = path.length + 1 := by
  obtain ⟨rid, e, rn, _, _, rfl⟩ := (mem_pushesOf s cur path x).mp hx
  rfl

theorem rootSeq_node_exists (s : HeapSnapshot) (u m : Nat)
    (h : RootSeq s u m) : ∃ n, s.node_by_id u = some n := by
  cases h with
  | zero u n hn _ => exact ⟨n, hn⟩
  | succ u n x e m hn _ _ => exact ⟨n, hn⟩

theorem chainRep_rootSeq (s : HeapSnapshot) (t : Nat)
    (ht : ∃ n, s.node_by_id t = some n) :
    ∀ (p : List (HeapNode × HeapEdge)) (u m : Nat),
      ChainRep s t u p → RootSeq s u m → RootSeq s t (p.length + m)
  | [], u, m, hc, hr => by
    have : u = t := hc
    subst this
    simpa using hr
  | (n, e) :: rest, u, m, hc, hr => by
    obtain ⟨hn, v, hv, hcrest⟩ := hc
    have hvnode : ∃ nv, s.node_by_id v = some nv := by
      cases hrest : rest with
      | nil =>
        have : v = t := by rw [hrest] at hcrest; exact hcrest
        exact this ▸ ht
      | cons hd tl =>
        rw [hrest] at hcrest
        obtain ⟨hd1, hd2⟩ := hd
        exact ⟨hd1, hcrest.1⟩
    obtain ⟨nv, hnv⟩ := hvnode
    have hstep : RootSeq s v (m + 1) := RootSeq.succ v nv u e m hnv hv hr
    have := chainRep_rootSeq s t ht rest v (m + 1) hcrest hstep
    simpa [Nat.add_assoc, Nat.add_comm, Nat.add_left_comm] using this

theorem chainRep_retainer_of_ne_nil (s : HeapSnapshot) (t : Nat) :
    ∀ (p : List (HeapNode × HeapEdge)) (u : Nat), ChainRep s t u p → p ≠ [] →
      ∃ w e, (w, e) ∈ s.retainersOf t
  | [], _, _, hne => absurd rfl hne
  | (n, e) :: rest, u, hc, _ => by
    obtain ⟨hn, v, hv, hcrest⟩ := hc
    cases hrest : rest with
    | nil =>
      rw [hrest] at hcrest
      have : v = t := hcrest
      subst this
      exact ⟨u, e, hv⟩
    | cons hd tl =>
      rw [hrest] at hcrest
      exact chainRep_retainer_of_ne_nil s t (hd :: tl) v hcrest (by simp)

theorem walkUp (s : HeapSnapshot) (visited : List Nat)
    (queue : List (Nat × List (HeapNode × HeapEdge)))
    (hC : Closure s visited queue) (hV : NoVisitedRoots s visited) :
    ∀ (m w : Nat), RootSeq s w m → w ∈ visited →
      ∃ r pr m2, (r, pr) ∈ queue ∧ r ∉ visited ∧ RootSeq s r m2 ∧ m2 + 1 ≤ m ∧
        ∀ hd ∈ queue.head?, pr.length ≤ hd.2.length + 1 := by
  intro m
  induction m with
  | zero =>
    intro w hr hw
    cases hr with
    | zero u n hn hroot =>
      have := hV w hw n hn
      rw [this] at hroot
      exact absurd hroot Bool.false_ne_true
  | succ m0 ih =>
    intro w hr hw
    cases hr with
    | succ u n x e m1 hn hmem hx =>
      have hxnode := rootSeq_node_exists s x m0 hx
      by_cases hxv : x ∈ visited
      · obtain ⟨r, pr, m2, hqm, hrv, hrs, hle, hbd⟩ := ih x hx hxv
        exact ⟨r, pr, m2, hqm, hrv, hrs, by omega, hbd⟩
      · rcases hC w hw ⟨n, hn⟩ (x, e) hmem hxnode with hxv2 | ⟨pr, hq, hbd⟩
        · exact absurd hxv2 hxv
        · exact ⟨x, pr, m0, hq, hxv, hx, Nat.le_refl _, hbd⟩

theorem bfs_sound (s : HeapSnapshot) (maxD t : Nat) :
    ∀ (visited : List Nat) (queue : List (Nat × List (HeapNode × HeapEdge))),
      ChainQueue s t queue →
      (bfs s maxD visited queue = [] ∨
        ∃ u n, s.node_by_id u = some n ∧ isGCRoot n = true ∧
          ChainRep s t u (bfs s maxD visited queue)) := by
  intro visited queue
  induction visited, queue using bfs.induct s maxD with
  | case1 visited =>
    intro _
    exact Or.inl (bfs_nil s maxD visited)
  | case2 visited cur path rest hskip ih =>
    intro hCQ
    rw [bfs_skip s maxD visited cur path rest hskip]
    exact ih (fun q hq => hCQ q (List.mem_cons_of_mem _ hq))
  | case3 visited cur path rest hns hnone ih =>
    intro hCQ
    rw [bfs_missing s maxD visited cur path rest hns hnone]
    exact ih (fun q hq => hCQ q (List.mem_cons_of_mem _ hq))
  | case4 visited cur path rest hns n hsome hroot =>
    intro hCQ
    rw [bfs_root s maxD visited cur path rest n hns hsome hroot]
    exact Or.inr ⟨cur, n, hsome, hroot, hCQ (cur, path) (List.mem_cons_self _ _)⟩
  | case5 visited cur path rest hns n hsome hrootF ih =>
    intro hCQ
    rw [bfs_expand s maxD visited cur path rest n hns hsome
      (Bool.eq_false_iff.mpr hrootF)]
    refine ih ?_
    intro q hq
    rcases List.mem_append.mp hq with hq | hq
    · exact hCQ q (List.mem_cons_of_mem _ hq)
    · obtain ⟨rid, e, rn, hmem, hnb, rfl⟩ := (mem_pushesOf s cur path q).mp hq
      exact ⟨hnb, cur, hmem, hCQ (cur, path) (List.mem_cons_self _ _)⟩

theorem pairwise_const_len (path : List (HeapNode × HeapEdge)) :
    ∀ (l : List (Nat × List (HeapNode × HeapEdge))),
      (∀ a ∈ l, a.2.length = path.length + 1) →
      l.Pairwise (fun a b => a.2.length ≤ b.2.length)
  | [], _ => List.Pairwise.nil
  | x :: xs, h => by
    constructor
    · intro b hb
      rw [h x (List.mem_cons_self _ _), h b (List.mem_cons_of_mem _ hb)]
    · exact pairwise_const_len path xs (fun a ha => h a (List.mem_cons_of_mem _ ha))

theorem bfs_min (s : HeapSnapshot) (maxD t d : Nat) (hdm : d ≤ maxD) :
    ∀ (visited : List Nat) (queue : List (Nat × List (HeapNode × HeapEdge))),
      SortedSpan queue → NoVisitedRoots s visited → Closure s visited queue →
      ChainQueue s t queue → Foothold s visited queue d →
      ∃ u n, s.node_by_id u = some n ∧ isGCRoot n = true ∧
        ChainRep s t u (bfs s maxD visited queue) ∧
        (bfs s maxD visited queue).length ≤ d := by
  intro visited queue
  induction visited, queue using bfs.induct s maxD with
  | case1 visited =>
    rintro _ _ _ _ ⟨u, p, m, hq, _, _, _⟩
    exact absurd hq (List.not_mem_nil _)
  | case2 visited cur path rest hskip ih =>
    rintro hS hV hC hCQ hFH
    obtain ⟨hpw, hspan⟩ := hS
    rcases List.pairwise_cons.mp hpw with ⟨hheadle, hpwrest⟩
    obtain ⟨u, p, m, hq, hunv, hrs, hbud⟩ := hFH
    have hple : path.length ≤ p.length := by
      rcases List.mem_cons.mp hq with heq | hq2
      · injection heq with h1 h2
        rw [h2]
      · exact hheadle _ hq2
    rcases hskip with hcv | hdeep
    · rw [bfs_skip s maxD visited cur path rest (Or.inl hcv)]
      have hS' : SortedSpan rest := by
        refine ⟨hpwrest, ?_⟩
        intro hd hhd f hf
        have h1 : f.2.length ≤ path.length + 1 :=
          hspan (cur, path) (by simp) f (List.mem_cons_of_mem _ hf)
        have h2 : path.length ≤ hd.2.length := hheadle hd (List.mem_of_mem_head? hhd)
        omega
      have hC' : Closure s visited rest := by
        intro w hw hnode r hr hrnode
        rcases hC w hw hnode r hr hrnode with hl | ⟨pr, hpr, hbd⟩
        · exact Or.inl hl
        · rcases List.mem_cons.mp hpr with heq | hpr2
          · injection heq with h1 h2
            exact Or.inl (by rw [h1]; exact hcv)
          · refine Or.inr ⟨pr, hpr2, ?_⟩
            intro hd hhd
            have h1 : pr.length ≤ path.length + 1 := hbd (cur, path) (by simp)
            have h2 : path.length ≤ hd.2.length := hheadle hd (List.mem_of_mem_head? hhd)
            omega
      have hCQ' : ChainQueue s t rest :=
        fun q hq2 => hCQ q (List.mem_cons_of_mem _ hq2)
      have hFH' : Foothold s visited rest d := by
        rcases List.mem_cons.mp hq with heq | hq2
        · injection heq with h1 h2
          exact absurd (by rw [h1]; exact hcv) hunv
        · exact ⟨u, p, m, hq2, hunv, hrs, hbud⟩
      exact ih hS' hV hC' hCQ' hFH'
    · exfalso
      omega
  | case3 visited cur path rest hns hnone ih =>
    rintro hS hV hC hCQ hFH
    obtain ⟨hpw, hspan⟩ := hS
    rcases List.pairwise_cons.mp hpw with ⟨hheadle, hpwrest⟩
    obtain ⟨u, p, m, hq, hunv, hrs, hbud⟩ := hFH
    rw [bfs_missing s maxD visited cur path rest hns hnone]
    have hS' : SortedSpan rest := by
      refine ⟨hpwrest, ?_⟩
      intro hd hhd f hf
      have h1 : f.2.length ≤ path.length + 1 :=
          hspan (cur, path) (by simp) f (List.mem_cons_of_mem _ hf)
      have h2 : path.length ≤ hd.2.length := hheadle hd (List.mem_of_mem_head? hhd)
      omega
    have hV' : NoVisitedRoots s (cur :: visited) := by
      intro w hw n2 hn2
      rcases List.mem_cons.mp hw with rfl | hw2
      · rw [hnone] at hn2
        cases hn2
      · exact hV w hw2 n2 hn2
    have hC' : Closure s (cur :: visited) rest := by
      intro w hw hnode r hr hrnode
      rcases List.mem_cons.mp hw with rfl | hw2
      · obtain ⟨n2, hn2⟩ := hnode
        rw [hnone] at hn2
        cases hn2
      · rcases hC w hw2 hnode r hr hrnode with hl | ⟨pr, hpr, hbd⟩
        · exact Or.inl (List.mem_cons_of_mem _ hl)
        · rcases List.mem_cons.mp hpr with heq | hpr2
          · injection heq with h1 h2
            exact Or.inl (by rw [h1]; exact List.mem_cons_self _ _)
          · refine Or.inr ⟨pr, hpr2, ?_⟩
            intro hd hhd
            have h1 : pr.length ≤ path.length + 1 := hbd (cur, path) (by simp)
            have h2 : path.length ≤ hd.2.length := hheadle hd (List.mem_of_mem_head? hhd)
            omega
    have hCQ' : ChainQueue s t rest :=
      fun q hq2 => hCQ q (List.mem_cons_of_mem _ hq2)
    have hFH' : Foothold s (cur :: visited) rest d := by
      have hune : u ≠ cur := by
        obtain ⟨nu, hnu⟩ := rootSeq_node_exists s u m hrs
        intro heq
        rw [heq, hnone] at hnu
        cases hnu
      have hq2 : (u, p) ∈ rest := by
        rcases List.mem_cons.mp hq with heq | hq2
        · injection heq with h1 _
          exact absurd h1 hune
        · exact hq2
      refine ⟨u, p, m, hq2, ?_, hrs, hbud⟩
      intro hmem2
      rcases List.mem_cons.mp hmem2 with heq | hw2
      · exact hune heq
      · exact hunv hw2
    exact ih hS' hV' hC' hCQ' hFH'
  | case4 visited cur path rest hns n hsome hroot =>
    rintro hS hV hC hCQ hFH
    obtain ⟨hpw, hspan⟩ := hS
    rcases List.pairwise_cons.mp hpw with ⟨hheadle, hpwrest⟩
    obtain ⟨u, p, m, hq, hunv, hrs, hbud⟩ := hFH
    have hple : path.length ≤ p.length := by
      rcases List.mem_cons.mp hq with heq | hq2
      · injection heq with h1 h2
        rw [h2]
      · exact hheadle _ hq2
    rw [bfs_root s maxD visited cur path rest n hns hsome hroot]
    exact ⟨cur, n, hsome, hroot, hCQ (cur, path) (List.mem_cons_self _ _), by omega⟩
  | case5 visited cur path rest hns n hsome hrootF ih =>
    rintro hS hV hC hCQ hFH
    have hroot : isGCRoot n = false := Bool.eq_false_iff.mpr hrootF
    obtain ⟨hpw, hspan⟩ := hS
    rcases List.pairwise_cons.mp hpw with ⟨hheadle, hpwrest⟩
    have hcurnv : cur ∉ visited := fun h => hns (Or.inl h)
    rw [bfs_expand s maxD visited cur path rest n hns hsome hroot]
    have hpushlen : ∀ x ∈ pushesOf s cur path, x.2.length = path.length + 1 :=
      fun x hx => length_of_mem_pushesOf s cur path x hx
    have hnewhd_ge : ∀ hd ∈ (rest ++ pushesOf s cur path).head?,
        path.length ≤ hd.2.length := by
      intro hd hhd
      rcases List.mem_append.mp (List.mem_of_mem_head? hhd) with hmem | hmem
      · exact hheadle hd hmem
      · rw [hpushlen hd hmem]
        omega
    have hnewhd_le : ∀ hd ∈ (rest ++ pushesOf s cur path).head?,
        hd.2.length ≤ path.length + 1 := by
      intro hd hhd
      rcases List.mem_append.mp (List.mem_of_mem_head? hhd) with hmem | hmem
      · exact hspan (cur, path) (by simp) hd (List.mem_cons_of_mem _ hmem)
      · rw [hpushlen hd hmem]
    have hS' : SortedSpan (rest ++ pushesOf s cur path) := by
      constructor
      · rw [List.pairwise_append]
        refine ⟨hpwrest, pairwise_const_len path _ hpushlen, ?_⟩
        intro a ha b hb
        have h1 : a.2.length ≤ path.length + 1 :=
          hspan (cur, path) (by simp) a (List.mem_cons_of_mem _ ha)
        rw [hpushlen b hb]
        omega
      · intro hd hhd f hf
        have h2 := hnewhd_ge hd hhd
        rcases List.mem_append.mp hf with hf | hf
        · have h1 : f.2.length ≤ path.length + 1 :=
          hspan (cur, path) (by simp) f (List.mem_cons_of_mem _ hf)
          omega
        · rw [hpushlen f hf]
          omega
    have hV' : NoVisitedRoots s (cur :: visited) := by
      intro w hw n2 hn2
      rcases List.mem_cons.mp hw with rfl | hw2
      · rw [hsome] at hn2
        obtain rfl := Option.some.inj hn2
        exact hroot
      · exact hV w hw2 n2 hn2
    have hC' : Closure s (cur :: visited) (rest ++ pushesOf s cur path) := by
      intro w hw hnode r hr hrnode
      rcases List.mem_cons.mp hw with rfl | hw2
      · obtain ⟨rn, hrn⟩ := hrnode
        refine Or.inr ⟨(rn, r.2) :: path, ?_, ?_⟩
        · refine List.mem_append.mpr (Or.inr ?_)
          rw [mem_pushesOf]
          exact ⟨r.1, r.2, rn, hr, hrn, rfl⟩
        · intro hd hhd
          have h2 := hnewhd_ge hd hhd
          simp only [List.length_cons]
          omega
      · rcases hC w hw2 hnode r hr hrnode with hl | ⟨pr, hpr, hbd⟩
        · exact Or.inl (List.mem_cons_of_mem _ hl)
        · rcases List.mem_cons.mp hpr with heq | hpr2
          · injection heq with h1 h2
            exact Or.inl (by rw [h1]; exact List.mem_cons_self _ _)
          · refine Or.inr ⟨pr, List.mem_append.mpr (Or.inl hpr2), ?_⟩
            intro hd hhd
            have h1 : pr.length ≤ path.length + 1 := hbd (cur, path) (by simp)
            have h2 := hnewhd_ge hd hhd
            omega
    have hCQ' : ChainQueue s t (rest ++ pushesOf s cur path) := by
      intro q hq
      rcases List.mem_append.mp hq with hq | hq
      · exact hCQ q (List.mem_cons_of_mem _ hq)
      · obtain ⟨rid, e, rn, hmem, hnb, rfl⟩ := (mem_pushesOf s cur path q).mp hq
        exact ⟨hnb, cur, hmem, hCQ (cur, path) (List.mem_cons_self _ _)⟩
    obtain ⟨u, p, m, hq, hunv, hrs, hbud⟩ := hFH
    have hple : path.length ≤ p.length := by
      rcases List.mem_cons.mp hq with heq | hq2
      · injection heq with h1 h2
        rw [h2]
      · exact hheadle _ hq2
    have hFH' : Foothold s (cur :: visited) (rest ++ pushesOf s cur path) d := by
      by_cases hu : u = cur
      · subst hu
        cases hrs with
        | zero u2 n2 hn2 hroot2 =>
          rw [hsome] at hn2
          obtain rfl := Option.some.inj hn2
          rw [hroot] at hroot2
          cases hroot2
        | succ u2 n2 x e m0 hn2 hmem hx =>
          obtain ⟨xn, hxn⟩ := rootSeq_node_exists s x m0 hx
          have hpushx : (x, (xn, e) :: path) ∈ pushesOf s u path := by
            rw [mem_pushesOf]
            exact ⟨x, e, xn, hmem, hxn, rfl⟩
          by_cases hxv : x ∈ u :: visited
          · obtain ⟨r, pr, m2, hqm, hrventry, hrs2, hle2, hbd2⟩ :=
              walkUp s (u :: visited) (rest ++ pushesOf s u path) hC' hV' m0 x hx hxv
            refine ⟨r, pr, m2, hqm, hrventry, hrs2, ?_⟩
            have hxq : (x, (xn, e) :: path) ∈ rest ++ pushesOf s u path :=
              List.mem_append.mpr (Or.inr hpushx)
            obtain ⟨hd, hhd⟩ :
                ∃ hd, (rest ++ pushesOf s u path).head? = some hd := by
              cases hl : rest ++ pushesOf s u path with
              | nil =>
                rw [hl] at hxq
                exact absurd hxq (List.not_mem_nil _)
              | cons y ys => exact ⟨y, rfl⟩
            have hb1 := hbd2 hd (by simp [hhd])
            have hb2 := hnewhd_le hd (by simp [hhd])
            omega
          · refine ⟨x, (xn, e) :: path, m0,
              List.mem_append.mpr (Or.inr hpushx), hxv, hx, ?_⟩
            simp only [List.length_cons]
            omega
      · have hq2 : (u, p) ∈ rest := by
          rcases List.mem_cons.mp hq with heq | hq2
          · injection heq with h1 _
            exact absurd h1 hu
          · exact hq2
        refine ⟨u, p, m, List.mem_append.mpr (Or.inl hq2), ?_, hrs, hbud⟩
        intro hmem2
        rcases List.mem_cons.mp hmem2 with heq | hw2
        · exact hu heq
        · exact hunv hw2
    exact ih hS' hV' hC' hCQ' hFH'

/-- C7: `find_retaining_path` on a node with no incoming edges that is not
itself the GC-roots node returns the empty path; on a node whose retainer one
hop away is the synthetic `(GC roots)` node it returns exactly one
(referrer node, edge) pair; whenever a retaining chain of length `d ≤
max_depth` exists, the breadth-first search over the retained-by index
returns a genuine retaining chain from a GC root whose length is at most `d`
and is itself realised as a retaining chain (fewest hops); and on a rootless
(hence possibly cyclic) snapshot the visited-set-guarded search terminates
and returns the empty path. -/
theorem C7_find_retaining_path (s : HeapSnapshot) (t maxD : Nat) :
    (s.retainersOf t = [] →
      (∀ n, s.node_by_id t = some n → isGCRoot n = false) →
      s.find_retaining_path t maxD = []) ∧
    (∀ n w e wn, s.node_by_id t = some n → isGCRoot n = false →
      (w, e) ∈ s.retainersOf t → s.node_by_id w = some wn →
      isGCRoot wn = true → 1 ≤ maxD →
      (s.find_retaining_path t maxD).length = 1) ∧
    (∀ d, d ≤ maxD → RootSeq s t d →
      ∃ u n, s.node_by_id u = some n ∧ isGCRoot n = true ∧
        ChainRep s t u (s.find_retaining_path t maxD) ∧
        (s.find_retaining_path t maxD).length ≤ d ∧
        RootSeq s t (s.find_retaining_path t maxD).length) ∧
    ((∀ n ∈ s.nodes, isGCRoot n = false) →
      s.find_retaining_path t maxD = []) := by
  have hmin : ∀ d, d ≤ maxD → RootSeq s t d →
      ∃ u n, s.node_by_id u = some n ∧ isGCRoot n = true ∧
        ChainRep s t u (s.find_retaining_path t maxD) ∧
        (s.find_retaining_path t maxD).length ≤ d ∧
        RootSeq s t (s.find_retaining_path t maxD).length := by
    intro d hdm hrs
    have ht := rootSeq_node_exists s t d hrs
    simp only [HeapSnapshot.find_retaining_path]
    have hSS : SortedSpan [(t, ([] : List (HeapNode × HeapEdge)))] := by
      constructor
      · simp
      · intro hd hhd f hf
        rcases List.mem_singleton.mp hf with rfl
        simp
    have hNV : NoVisitedRoots s [] := by
      intro w hw
      exact absurd hw (List.not_mem_nil _)
    have hCl : Closure s [] [(t, ([] : List (HeapNode × HeapEdge)))] := by
      intro w hw
      exact absurd hw (List.not_mem_nil _)
    have hCQ : ChainQueue s t [(t, ([] : List (HeapNode × HeapEdge)))] := by
      intro q hq
      rcases List.mem_singleton.mp hq with rfl
      exact rfl
    have hFH : Foothold s [] [(t, ([] : List (HeapNode × HeapEdge)))] d := by
      refine ⟨t, [], d, List.mem_singleton.mpr rfl, List.not_mem_nil _, hrs, ?_⟩
      simp
    obtain ⟨u, n, hn, hroot, hchain, hlen⟩ :=
      bfs_min s maxD t d hdm [] [(t, [])] hSS hNV hCl hCQ hFH
    refine ⟨u, n, hn, hroot, hchain, hlen, ?_⟩
    have := chainRep_rootSeq s t ht _ u 0 hchain (RootSeq.zero u n hn hroot)
    simpa using this
  refine ⟨?_, ?_, hmin, ?_⟩
  · intro hret hnr
    simp only [HeapSnapshot.find_retaining_path]
    have hns : ¬(t ∈ ([] : List Nat) ∨
        maxD < ([] : List (HeapNode × HeapEdge)).length) := by
      simp
    cases hn : s.node_by_id t with
    | none =>
      rw [bfs_missing s maxD [] t [] [] hns hn, bfs_nil]
    | some n =>
      rw [bfs_expand s maxD [] t [] [] n hns hn (hnr n hn)]
      have hpush : pushesOf s t [] = [] := by
        unfold pushesOf
        rw [hret]
        rfl
      rw [hpush, List.append_nil]
      exact bfs_nil s maxD [t]
  · intro n w e wn hn hnroot hmem hw hwroot hmd
    have hrs : RootSeq s t 1 :=
      RootSeq.succ t n w e 0 hn hmem (RootSeq.zero w wn hw hwroot)
    obtain ⟨u, nu, hnu, hrootu, hchain, hlen, _⟩ := hmin 1 hmd hrs
    rcases hres : s.find_retaining_path t maxD with _ | ⟨hd0, tl⟩
    · rw [hres] at hchain
      have : u = t := hchain
      subst this
      rw [hn] at hnu
      obtain rfl := Option.some.inj hnu
      rw [hnroot] at hrootu
      cases hrootu
    · rw [hres] at hlen
      simp only [List.length_cons] at hlen ⊢
      omega
  · intro hall
    simp only [HeapSnapshot.find_retaining_path]
    have hCQ : ChainQueue s t [(t, ([] : List (HeapNode × HeapEdge)))] := by
      intro q hq
      rcases List.mem_singleton.mp hq with rfl
      exact rfl
    rcases bfs_sound s maxD t [] [(t, [])] hCQ with hnil | ⟨u, n, hn, hroot, _⟩
    · exact hnil
    · exfalso
      have hn' : List.find? (fun nd => nd.node_id = u) s.nodes.reverse
          = some n := hn
      have hmem : n ∈ s.nodes :=
        List.mem_reverse.mp (List.mem_of_find?_eq_some hn')
      rw [hall n hmem] at hroot
      cases hroot

/-- Witness for C7 on concrete snapshots: in `c7snap` (GC root 1 retains 2,
2 retains 3, node 5 isolated) the search returns the empty path for node 5,
a single pair for node 2 and at most two pairs for node 3; in the rootless
two-node retain cycle `c7cyc` it returns the empty path. -/
theorem C7_find_retaining_path_witness :
    c7snap.find_retaining_path 5 10 = [] ∧
    (c7snap.find_retaining_path 2 10).length = 1 ∧
    (c7snap.find_retaining_path 3 10).length ≤ 2 ∧
    c7cyc.find_retaining_path 7 10 = [] := by
  refine ⟨?_, ?_, ?_, ?_⟩
  · refine (C7_find_retaining_path c7snap 5 10).1 (by decide) ?_
    intro n hn
    have h5 : c7snap.node_by_id 5 = some ⟨5, "object", "C", 8, 0, 0⟩ := by
      decide
    rw [h5] at hn
    obtain rfl := Option.some.inj hn
    decide
  · exact (C7_find_retaining_path c7snap 2 10).2.1
      ⟨2, "object", "A", 16, 1, 0⟩ 1 c7edge12
      ⟨1, "synthetic", "(GC roots)", 0, 1, 0⟩
      (by decide) (by decide) (by decide) (by decide) (by decide) (by decide)
  · have hr0 : RootSeq c7snap 1 0 :=
      RootSeq.zero 1 ⟨1, "synthetic", "(GC roots)", 0, 1, 0⟩
        (by decide) (by decide)
    have hr1 : RootSeq c7snap 2 1 :=
      RootSeq.succ 2 ⟨2, "object", "A", 16, 1, 0⟩ 1 c7edge12 0
        (by decide) (by decide) hr0
    have hr2 : RootSeq c7snap 3 2 :=
      RootSeq.succ 3 ⟨3, "object", "B", 24, 0, 0⟩ 2 c7edge23 1
        (by decide) (by decide) hr1
    obtain ⟨u, n, _, _, _, hlen, _⟩ :=
      (C7_find_retaining_path c7snap 3 10).2.2.1 2 (by decide) hr2
    exact hlen
  · exact (C7_find_retaining_path c7cyc 7 10).2.2.2 (by decide)

end DenoDebug
